import Mathlib

/-!
Verification of the spec-kit provisioning pipeline (`src/specify_cli/__init__.py`).

The filesystem is modelled as a finite tree of named entries: a node is either a
file with string content or a directory with an association list of children.
Paths are lists of component names.  The merge engine, the legacy relocator, the
permission normalizer, the flatten rule, the asset selector and the local
template discovery are translated from the source into pure functions over this
model; the theorems below settle the frozen claims about them.
-/

set_option maxHeartbeats 1000000

namespace SpecKit

/-- A filesystem node: a file with content, or a directory whose children are
an association list from entry name to node (real directories have no duplicate
names; see `WFt`). -/
inductive FSTree where
  | file : String → FSTree
  | dir : List (String × FSTree) → FSTree

/-- Whether a node is a directory (`Path.is_dir`). -/
def FSTree.isDirB : FSTree → Bool
  | FSTree.file _ => false
  | FSTree.dir _ => true

/-- Children of a node (empty for a file). -/
def FSTree.childrenOf : FSTree → List (String × FSTree)
  | FSTree.file _ => []
  | FSTree.dir cs => cs

/-- Lookup of a child by name in a children list (directory entry lookup). -/
def childGet (cs : List (String × FSTree)) (n : String) : Option FSTree :=
  match cs with
  | [] => none
  | (m, v) :: rest => if m = n then some v else childGet rest n

/-- Replace the first binding for `n`, or append one if absent. -/
def childSet : List (String × FSTree) → String → FSTree → List (String × FSTree)
  | [], n, v => [(n, v)]
  | (m, w) :: rest, n, v =>
    if m = n then (n, v) :: rest
    else (m, w) :: childSet rest n v

/-- Remove every binding for `n` (directory entry removal). -/
def childRemove : List (String × FSTree) → String → List (String × FSTree)
  | [], _ => []
  | (m, w) :: rest, n =>
    if m = n then childRemove rest n
    else (m, w) :: childRemove rest n

/-- The child of a node at one name, `none` for files and missing entries. -/
def childOf (t : FSTree) (n : String) : Option FSTree :=
  match t with
  | FSTree.file _ => none
  | FSTree.dir cs => childGet cs n

/-- Resolve a path from a node (`none` when a component is missing or a file is
traversed). -/
def getPath : FSTree → List String → Option FSTree
  | t, [] => some t
  | FSTree.file _, _ :: _ => none
  | FSTree.dir cs, a :: p =>
    match childGet cs a with
    | some c => getPath c p
    | none => none

/-- Write a node at a path, creating intermediate directories as needed
(the pipeline only writes below parents that already exist as directories). -/
def setPath : FSTree → List String → FSTree → FSTree
  | _, [], v => v
  | t, a :: p, v =>
    let cs := t.childrenOf
    FSTree.dir (childSet cs a (setPath ((childGet cs a).getD (FSTree.dir [])) p v))

/-- Remove the entry at a path (no-op when the path is missing or empty). -/
def removePath : FSTree → List String → FSTree
  | t, [] => t
  | t, [a] =>
    match t with
    | FSTree.dir cs => FSTree.dir (childRemove cs a)
    | f => f
  | t, a :: b :: p =>
    match t with
    | FSTree.dir cs =>
      match childGet cs a with
      | some c => FSTree.dir (childSet cs a (removePath c (b :: p)))
      | none => FSTree.dir cs
    | f => f

/-- `shutil.move`: detach the subtree at `src` and re-attach it at `dst`
(no-op when `src` is missing; the callers always guard existence). -/
def movePath (t : FSTree) (src dst : List String) : FSTree :=
  match getPath t src with
  | none => t
  | some v => setPath (removePath t src) dst v

/-- `Path.exists()` along a path. -/
def existsB (t : FSTree) (p : List String) : Bool :=
  (getPath t p).isSome

/-- Whether the entry at `p` is an empty directory (`rmdir` succeeds exactly
then). -/
def isEmptyDirAt (t : FSTree) (p : List String) : Bool :=
  match getPath t p with
  | some (FSTree.dir []) => true
  | _ => false

/-- The path exists and is a directory. -/
def isDirAtB (t : FSTree) (p : List String) : Bool :=
  match getPath t p with
  | some (FSTree.dir _) => true
  | _ => false

/-- Well-formed filesystem: every directory's children carry pairwise distinct
names, recursively. -/
inductive WFt : FSTree → Prop where
  | file : ∀ c, WFt (FSTree.file c)
  | dir : ∀ cs, (cs.map Prod.fst).Nodup → (∀ x ∈ cs, WFt x.2) → WFt (FSTree.dir cs)

/-! ### Basic lemmas on children lists -/

theorem childGet_eq_none_of_not_mem {cs : List (String × FSTree)} {n : String}
    (h : n ∉ cs.map Prod.fst) : childGet cs n = none := by
  induction cs with
  | nil => rfl
  | cons hd tl ih =>
    simp only [List.map_cons, List.mem_cons] at h
    push_neg at h
    simp only [childGet]
    rw [if_neg (fun hh => h.1 hh.symm)]
    exact ih h.2

theorem childGet_mem {cs : List (String × FSTree)} {n : String} {v : FSTree}
    (h : childGet cs n = some v) : (n, v) ∈ cs := by
  induction cs with
  | nil => simp [childGet] at h
  | cons hd tl ih =>
    simp only [childGet] at h
    by_cases he : hd.1 = n
    · rw [if_pos he] at h
      cases h
      subst he
      exact List.mem_cons.2 (Or.inl (by cases hd; rfl))
    · rw [if_neg he] at h
      exact List.mem_cons_of_mem _ (ih h)

theorem mem_keys_of_childGet {cs : List (String × FSTree)} {n : String} {v : FSTree}
    (h : childGet cs n = some v) : n ∈ cs.map Prod.fst :=
  List.mem_map.2 ⟨(n, v), childGet_mem h, rfl⟩

theorem childGet_of_mem {cs : List (String × FSTree)} {n : String} {v : FSTree}
    (hnd : (cs.map Prod.fst).Nodup) (h : (n, v) ∈ cs) : childGet cs n = some v := by
  induction cs with
  | nil => simp at h
  | cons hd tl ih =>
    simp only [List.map_cons, List.nodup_cons] at hnd
    rcases List.mem_cons.1 h with h1 | h2
    · subst h1
      simp [childGet]
    · have hne : hd.1 ≠ n := by
        intro he
        exact hnd.1 (he ▸ (List.mem_map.2 ⟨_, h2, rfl⟩))
      simp only [childGet, if_neg hne]
      exact ih hnd.2 h2

theorem childGet_childSet_same (cs : List (String × FSTree)) (n : String) (v : FSTree) :
    childGet (childSet cs n v) n = some v := by
  induction cs with
  | nil => simp [childSet, childGet]
  | cons hd tl ih =>
    cases hd with
    | mk m w =>
      by_cases he : m = n
      · simp [childSet, childGet, he]
      · simp only [childSet, if_neg he, childGet]
        exact ih

theorem childGet_childSet_ne (cs : List (String × FSTree)) {n m : String} (v : FSTree)
    (h : m ≠ n) : childGet (childSet cs n v) m = childGet cs m := by
  have h' : ¬ (n = m) := fun hh => h hh.symm
  induction cs with
  | nil => simp [childSet, childGet, h']
  | cons hd tl ih =>
    cases hd with
    | mk a w =>
      by_cases he : a = n
      · simp only [childSet, if_pos he, childGet]
        rw [if_neg (fun hh => h hh.symm), if_neg (by rw [he]; exact fun hh => h hh.symm)]
      · simp only [childSet, if_neg he, childGet]
        by_cases he2 : a = m
        · rw [if_pos he2, if_pos he2]
        · rw [if_neg he2, if_neg he2]
          exact ih

theorem childGet_childRemove_same (cs : List (String × FSTree)) (n : String) :
    childGet (childRemove cs n) n = none := by
  induction cs with
  | nil => rfl
  | cons hd tl ih =>
    cases hd with
    | mk m w =>
      by_cases he : m = n
      · simp only [childRemove, if_pos he]
        exact ih
      · simp only [childRemove, if_neg he, childGet]
        exact ih

theorem childGet_childRemove_ne (cs : List (String × FSTree)) {n m : String}
    (h : m ≠ n) : childGet (childRemove cs n) m = childGet cs m := by
  induction cs with
  | nil => rfl
  | cons hd tl ih =>
    cases hd with
    | mk a w =>
      by_cases he : a = n
      · simp only [childRemove, if_pos he, childGet]
        rw [if_neg (by rw [he]; exact fun hh => h hh.symm)]
        exact ih
      · simp only [childRemove, if_neg he, childGet]
        by_cases he2 : a = m
        · rw [if_pos he2, if_pos he2]
        · rw [if_neg he2, if_neg he2]
          exact ih

theorem keys_childSet (cs : List (String × FSTree)) (n : String) (v : FSTree) :
    (childSet cs n v).map Prod.fst =
      if n ∈ cs.map Prod.fst then cs.map Prod.fst else cs.map Prod.fst ++ [n] := by
  induction cs with
  | nil => simp [childSet]
  | cons hd tl ih =>
    cases hd with
    | mk a w =>
      by_cases he : a = n
      · simp [childSet, if_pos he, he]
      · simp only [childSet, if_neg he, List.map_cons, ih]
        by_cases hm : n ∈ tl.map Prod.fst
        · rw [if_pos hm, if_pos (List.mem_cons.2 (Or.inr hm))]
        · rw [if_neg hm, if_neg (by
            intro hc
            rcases List.mem_cons.1 hc with h1 | h2
            · exact he h1.symm
            · exact hm h2)]
          rfl

theorem nodup_keys_childSet {cs : List (String × FSTree)} (n : String) (v : FSTree)
    (h : (cs.map Prod.fst).Nodup) : ((childSet cs n v).map Prod.fst).Nodup := by
  rw [keys_childSet]
  by_cases hm : n ∈ cs.map Prod.fst
  · rwa [if_pos hm]
  · rw [if_neg hm, List.nodup_append]
    exact ⟨h, List.nodup_singleton _, fun a ha hb => hm ((List.mem_singleton.1 hb) ▸ ha)⟩

theorem keys_childRemove_sublist (cs : List (String × FSTree)) (n : String) :
    ((childRemove cs n).map Prod.fst).Sublist (cs.map Prod.fst) := by
  induction cs with
  | nil => simp [childRemove]
  | cons hd tl ih =>
    cases hd with
    | mk a w =>
      by_cases he : a = n
      · simp only [childRemove, if_pos he, List.map_cons]
        exact ih.cons _
      · simp only [childRemove, if_neg he, List.map_cons]
        exact ih.cons₂ _

theorem nodup_keys_childRemove {cs : List (String × FSTree)} (n : String)
    (h : (cs.map Prod.fst).Nodup) : ((childRemove cs n).map Prod.fst).Nodup :=
  (keys_childRemove_sublist cs n).nodup h

theorem mem_childSet_elem {cs : List (String × FSTree)} {n : String} {v : FSTree}
    {x : String × FSTree} (h : x ∈ childSet cs n v) : x ∈ cs ∨ x = (n, v) := by
  induction cs with
  | nil => simpa [childSet] using h
  | cons hd tl ih =>
    cases hd with
    | mk a w =>
      by_cases he : a = n
      · simp only [childSet, if_pos he] at h
        rcases List.mem_cons.1 h with h1 | h2
        · exact Or.inr h1
        · exact Or.inl (List.mem_cons_of_mem _ h2)
      · simp only [childSet, if_neg he] at h
        rcases List.mem_cons.1 h with h1 | h2
        · exact Or.inl (h1 ▸ List.mem_cons_self _ _)
        · rcases ih h2 with h3 | h4
          · exact Or.inl (List.mem_cons_of_mem _ h3)
          · exact Or.inr h4

theorem mem_childRemove_elem {cs : List (String × FSTree)} {n : String}
    {x : String × FSTree} (h : x ∈ childRemove cs n) : x ∈ cs := by
  induction cs with
  | nil => simp [childRemove] at h
  | cons hd tl ih =>
    cases hd with
    | mk a w =>
      by_cases he : a = n
      · simp only [childRemove, if_pos he] at h
        exact List.mem_cons_of_mem _ (ih h)
      · simp only [childRemove, if_neg he] at h
        rcases List.mem_cons.1 h with h1 | h2
        · exact h1 ▸ List.mem_cons_self _ _
        · exact List.mem_cons_of_mem _ (ih h2)

/-! ### Path-level lemmas -/

theorem childOf_eq_childGet (t : FSTree) (a : String) :
    childOf t a = childGet t.childrenOf a := by
  cases t <;> rfl

theorem getPath_nil (t : FSTree) : getPath t [] = some t := by
  simp [getPath]

theorem getPath_cons (t : FSTree) (a : String) (p : List String) :
    getPath t (a :: p) = Option.bind (childOf t a) (fun c => getPath c p) := by
  cases t with
  | file c => rfl
  | dir cs =>
    cases h : childGet cs a <;> simp [getPath, childOf, h]

theorem getPath_single (t : FSTree) (a : String) :
    getPath t [a] = childOf t a := by
  rw [getPath_cons]
  cases childOf t a <;> simp [getPath]

theorem setPath_nil (t v : FSTree) : setPath t [] v = v := by
  simp [setPath]

theorem setPath_cons (t : FSTree) (a : String) (p : List String) (v : FSTree) :
    setPath t (a :: p) v = FSTree.dir (childSet t.childrenOf a
      (setPath ((childGet t.childrenOf a).getD (FSTree.dir [])) p v)) := by
  simp [setPath]

theorem childOf_setPath (t : FSTree) (a : String) (p : List String) (v : FSTree) (b : String) :
    childOf (setPath t (a :: p) v) b =
      if b = a then some (setPath ((childOf t a).getD (FSTree.dir [])) p v)
      else childOf t b := by
  rw [childOf_eq_childGet t a, setPath_cons]
  show childGet _ b = _
  by_cases hb : b = a
  · rw [if_pos hb, hb, childGet_childSet_same]
  · rw [if_neg hb, childGet_childSet_ne _ _ hb, ← childOf_eq_childGet]

theorem childOf_removePath_ne (t : FSTree) (a : String) (p : List String) {b : String}
    (h : b ≠ a) : childOf (removePath t (a :: p)) b = childOf t b := by
  cases t with
  | file c => cases p <;> rfl
  | dir cs =>
    cases p with
    | nil =>
      simp only [removePath, childOf]
      exact childGet_childRemove_ne cs h
    | cons x q =>
      simp only [removePath]
      cases hg : childGet cs a with
      | none => rfl
      | some c =>
        simp only [childOf]
        exact childGet_childSet_ne cs _ h

theorem childOf_removePath_single (t : FSTree) (a : String) :
    childOf (removePath t [a]) a = none := by
  cases t with
  | file c => rfl
  | dir cs =>
    simp only [removePath, childOf]
    exact childGet_childRemove_same cs a

theorem childOf_removePath_deep (t : FSTree) (a x : String) (q : List String) :
    childOf (removePath t (a :: x :: q)) a =
      (childOf t a).map (fun c => removePath c (x :: q)) := by
  cases t with
  | file c => rfl
  | dir cs =>
    simp only [removePath]
    cases hg : childGet cs a with
    | none => simp [childOf, hg]
    | some c =>
      simp only [childOf, hg, Option.map_some]
      exact childGet_childSet_same cs a _

theorem getPath_setPath_same (t : FSTree) (p : List String) (v : FSTree) :
    getPath (setPath t p v) p = some v := by
  induction p generalizing t with
  | nil => rw [setPath_nil, getPath_nil]
  | cons a q ih =>
    rw [getPath_cons, childOf_setPath]
    rw [if_pos rfl]
    exact ih _

theorem getPath_setPath_ne (t : FSTree) {a b : String} (p q : List String) (v : FSTree)
    (h : b ≠ a) : getPath (setPath t (a :: p) v) (b :: q) = getPath t (b :: q) := by
  rw [getPath_cons, childOf_setPath, if_neg h, ← getPath_cons]

theorem getPath_removePath_ne (t : FSTree) {a b : String} (p q : List String)
    (h : b ≠ a) : getPath (removePath t (a :: p)) (b :: q) = getPath t (b :: q) := by
  rw [getPath_cons, childOf_removePath_ne t a p h, ← getPath_cons]

theorem getPath_setPath_into (t : FSTree) (a : String) (p q : List String) (v : FSTree) :
    getPath (setPath t (a :: p) v) (a :: q) =
      getPath (setPath ((childOf t a).getD (FSTree.dir [])) p v) q := by
  rw [getPath_cons, childOf_setPath, if_pos rfl, Option.some_bind]

theorem getPath_setPath_isSome_mono {t : FSTree} {p : List String} (v : FSTree)
    (hnone : getPath t p = none) {q : List String}
    (hq : (getPath t q).isSome) : (getPath (setPath t p v) q).isSome := by
  induction p generalizing t q with
  | nil => rw [getPath_nil] at hnone; cases hnone
  | cons a p' ih =>
    cases q with
    | nil => rw [getPath_nil]; rfl
    | cons b q' =>
      by_cases hb : b = a
      · subst hb
        rw [getPath_setPath_into]
        rw [getPath_cons] at hq hnone
        cases hc : childOf t b with
        | none =>
          rw [hc, Option.none_bind] at hq
          simp at hq
        | some c =>
          rw [hc] at hq hnone
          simp only [Option.some_bind] at hq hnone
          simp only [hc, Option.getD_some]
          exact ih hnone hq
      · rw [getPath_setPath_ne t _ _ v hb]
        exact hq

/-! ### Well-formedness preservation -/

theorem WFt_dir_nil : WFt (FSTree.dir []) := WFt.dir [] (by simp) (by simp)

theorem WFt_childrenOf_nodup {t : FSTree} (h : WFt t) :
    (t.childrenOf.map Prod.fst).Nodup := by
  cases h with
  | file c => simp [FSTree.childrenOf]
  | dir cs hnd _ => exact hnd

theorem WFt_childrenOf_mem {t : FSTree} (h : WFt t) :
    ∀ x ∈ t.childrenOf, WFt x.2 := by
  cases h with
  | file c => simp [FSTree.childrenOf]
  | dir cs _ hm => exact hm

theorem WFt_childOf {t : FSTree} (h : WFt t) {a : String} {c : FSTree}
    (hc : childOf t a = some c) : WFt c := by
  rw [childOf_eq_childGet] at hc
  exact WFt_childrenOf_mem h _ (childGet_mem hc)

theorem WFt_getPath {t : FSTree} (h : WFt t) {p : List String} {s : FSTree}
    (hs : getPath t p = some s) : WFt s := by
  induction p generalizing t with
  | nil =>
    rw [getPath_nil] at hs
    cases hs
    exact h
  | cons a q ih =>
    rw [getPath_cons] at hs
    cases hc : childOf t a with
    | none =>
      rw [hc, Option.none_bind] at hs
      cases hs
    | some c =>
      rw [hc] at hs
      simp only [Option.some_bind] at hs
      exact ih (WFt_childOf h hc) hs

theorem WFt_setPath {t : FSTree} (h : WFt t) {v : FSTree} (hv : WFt v)
    (p : List String) : WFt (setPath t p v) := by
  induction p generalizing t with
  | nil => exact hv
  | cons a q ih =>
    show WFt (FSTree.dir (childSet t.childrenOf a
      (setPath ((childGet t.childrenOf a).getD (FSTree.dir [])) q v)))
    have hsub : WFt ((childGet t.childrenOf a).getD (FSTree.dir [])) := by
      cases hg : childGet t.childrenOf a with
      | none => exact WFt_dir_nil
      | some c =>
        simp only [Option.getD_some]
        exact WFt_childrenOf_mem h _ (childGet_mem hg)
    refine WFt.dir _ (nodup_keys_childSet _ _ (WFt_childrenOf_nodup h)) ?_
    intro x hx
    rcases mem_childSet_elem hx with h1 | h2
    · exact WFt_childrenOf_mem h _ h1
    · rw [h2]
      exact ih hsub

theorem WFt_removePath {t : FSTree} (h : WFt t) (p : List String) :
    WFt (removePath t p) := by
  induction p generalizing t with
  | nil => exact h
  | cons a q ih =>
    cases t with
    | file c => cases q <;> exact h
    | dir cs =>
      cases h with
      | dir cs hnd hm =>
        cases q with
        | nil =>
          refine WFt.dir _ (nodup_keys_childRemove _ hnd) ?_
          intro x hx
          exact hm _ (mem_childRemove_elem hx)
        | cons x q' =>
          simp only [removePath]
          cases hg : childGet cs a with
          | none => exact WFt.dir _ hnd hm
          | some c =>
            refine WFt.dir _ (nodup_keys_childSet _ _ hnd) ?_
            intro y hy
            rcases mem_childSet_elem hy with h1 | h2
            · exact hm _ h1
            · rw [h2]
              exact ih (hm _ (childGet_mem hg))

theorem WFt_movePath {t : FSTree} (h : WFt t) (src dst : List String) :
    WFt (movePath t src dst) := by
  unfold movePath
  cases hg : getPath t src with
  | none => exact h
  | some v =>
    exact WFt_setPath (WFt_removePath h src) (WFt_getPath h hg) dst

/-! ### Flatten rule (C5) -/

/-- Source: `download_and_extract_template` (lines 839-842): after listing the
payload root's entries, when there is exactly one entry and it is a directory,
the payload root becomes that single child; in every other case it is used
unchanged. -/
def flattenPayloadRoot (root : FSTree) : FSTree :=
  match root.childrenOf with
  | [(_, c)] => if c.isDirB then c else root
  | _ => root

/-! ### Failure cleanup (C6) -/

/-- The tree the extract+merge span starts from: for a fresh target the
`mkdir(parents=True, exist_ok=True)` call materialises an empty directory when
none exists; an in-place target is the current directory's tree. -/
def startTree (proj0 : Option FSTree) : FSTree :=
  match proj0 with
  | some t => t
  | none => FSTree.dir []

/-- Source: `download_and_extract_template` (lines 812-869): the try block
creates the project directory for fresh targets, runs extraction and merge
(`work`, which yields an optional error together with the partially mutated
tree), and on an exception removes a freshly created project directory with
`shutil.rmtree` before re-raising; an in-place target is never deleted.  The
result is the surfaced error (if any) paired with the final state of the
project directory (`none` = does not exist). -/
def provisionAttempt (isCurrentDir : Bool) (proj0 : Option FSTree)
    (work : FSTree → Option String × FSTree) : Option String × Option FSTree :=
  let r := work (startTree proj0)
  match r.1 with
  | none => (none, some r.2)
  | some e =>
    if isCurrentDir then (some e, some r.2)
    else (some e, none)

/-! ### Remote asset selection (C7) -/

/-- Whether `needle` occurs as a contiguous run inside `hay` (Python's `in`
operator on strings), on the underlying character lists. -/
def listContainsSub (needle : List Char) : List Char → Bool
  | [] => needle.isEmpty
  | c :: rest => needle.isPrefixOf (c :: rest) || listContainsSub needle rest

/-- Substring containment, as Python's `in` operator on strings. -/
def strContainsSub (hay needle : String) : Bool :=
  listContainsSub needle.data hay.data

/-- Python `str.endswith`, on the underlying character lists. -/
def strEndsWithL (s suf : String) : Bool :=
  suf.data.isSuffixOf s.data

/-- Python `str.startswith`, on the underlying character lists. -/
def strStartsWithL (s q : String) : Bool :=
  q.data.isPrefixOf s.data

/-- Source: `download_template_from_github` (line 575): the asset name pattern
`spec-kit-template-{ai_assistant}-{script_type}`. -/
def assetPattern (aiAssistant scriptType : String) : String :=
  "spec-kit-template-" ++ aiAssistant ++ "-" ++ scriptType

/-- Source: lines 576-579: an asset matches when its name contains the pattern
and ends with `.zip`. -/
def assetMatches (aiAssistant scriptType name : String) : Bool :=
  strContainsSub name (assetPattern aiAssistant scriptType) && strEndsWithL name ".zip"

/-- Source: line 581: `matching_assets[0] if matching_assets else None`. -/
def selectAsset (assets : List String) (aiAssistant scriptType : String) : Option String :=
  (assets.filter (assetMatches aiAssistant scriptType)).head?

/-- Source: lines 581-587: a matching asset is returned; otherwise the run
fails with an asset-not-found error whose diagnostics carry every available
asset name. -/
def resolveAsset (assets : List String) (aiAssistant scriptType : String) :
    Except (String × List String) String :=
  match selectAsset assets aiAssistant scriptType with
  | some name => Except.ok name
  | none => Except.error ("No matching release asset found", assets)

/-- The original claim's reading of the matcher, for comparison: the asset
name need only contain the substring `template-<agent>-<script>` (without the
`spec-kit-` prefix the code requires). -/
def claimC7pattern (aiAssistant scriptType : String) : String :=
  "template-" ++ aiAssistant ++ "-" ++ scriptType

/-- The original claim's matcher: substring `template-<agent>-<script>` plus
the `.zip` suffix. -/
def claimC7matches (aiAssistant scriptType name : String) : Bool :=
  strContainsSub name (claimC7pattern aiAssistant scriptType)
    && strEndsWithL name ".zip"

/-- Resolution under the original claim's matcher: first match in listing
order, otherwise the asset-not-found error with all asset names. -/
def claimC7resolve (assets : List String) (aiAssistant scriptType : String) :
    Except (String × List String) String :=
  match (assets.filter (claimC7matches aiAssistant scriptType)).head? with
  | some name => Except.ok name
  | none => Except.error ("No matching release asset found", assets)

theorem head_filter_eq_find (p : String → Bool) (l : List String) :
    (l.filter p).head? = l.find? p := by
  induction l with
  | nil => rfl
  | cons hd tl ih =>
    by_cases h : p hd
    · simp [List.filter_cons, List.find?, h]
    · simp only [List.filter_cons, List.find?]
      rw [if_neg (by simp [h])]
      simp only [h]
      exact ih

/-- C7 counterexample: for the sole asset `x-template-claude-sh.zip` the
original claim's substring rule (`template-claude-sh` anywhere in the name)
selects the asset, while the code's pattern `spec-kit-template-claude-sh`
matches nothing and resolution fails with the asset-not-found error carrying
the asset list. -/
theorem c7_asset_counterexample :
    claimC7resolve ["x-template-claude-sh.zip"] "claude" "sh"
      = Except.ok "x-template-claude-sh.zip"
    ∧ resolveAsset ["x-template-claude-sh.zip"] "claude" "sh"
      = Except.error ("No matching release asset found",
          ["x-template-claude-sh.zip"]) :=
  ⟨rfl, rfl⟩

/-- C7 (amended): for a remote source the selected release asset is the first
asset, in the release's listing order, whose name contains the substring
`spec-kit-template-<agent>-<script>` (the code fixes this literal prefix; a
name containing only `template-<agent>-<script>` does not qualify) and ends
with `.zip`; when none matches, resolution fails with an asset-not-found error
carrying the list of all available asset names. -/
theorem c7_asset_selection (assets : List String) (aiAssistant scriptType : String) :
    resolveAsset assets aiAssistant scriptType =
      match assets.find? (assetMatches aiAssistant scriptType) with
      | some name => Except.ok name
      | none => Except.error ("No matching release asset found", assets) := by
  unfold resolveAsset selectAsset
  rw [head_filter_eq_find]

/-- C5: a payload root with exactly one top-level entry that is a directory is
replaced by that single child (descending exactly one level); with multiple
entries, no entries, or a single file entry the payload root is unchanged. -/
theorem c5_flatten_rule (root : FSTree) :
    (∀ n c, root.childrenOf = [(n, c)] → c.isDirB = true → flattenPayloadRoot root = c)
    ∧ (∀ n c, root.childrenOf = [(n, c)] → c.isDirB = false → flattenPayloadRoot root = root)
    ∧ (root.childrenOf.length ≠ 1 → flattenPayloadRoot root = root) := by
  refine ⟨?_, ?_, ?_⟩
  · intro n c h hdir
    unfold flattenPayloadRoot
    rw [h]
    simp [hdir]
  · intro n c h hdir
    unfold flattenPayloadRoot
    rw [h]
    simp [hdir]
  · intro hlen
    unfold flattenPayloadRoot
    cases h : root.childrenOf with
    | nil => rfl
    | cons hd tl =>
      cases tl with
      | nil =>
        rw [h] at hlen
        simp at hlen
      | cons hd2 tl2 => rfl

/-- C5 witness: a wrapped payload is flattened to its single directory child,
and a two-entry payload is left unchanged. -/
theorem c5_flatten_rule_witness :
    flattenPayloadRoot (FSTree.dir [("wrap", FSTree.dir [("a", FSTree.file "x")])])
      = FSTree.dir [("a", FSTree.file "x")]
    ∧ flattenPayloadRoot (FSTree.dir [("a", FSTree.file "x"), ("b", FSTree.file "y")])
      = FSTree.dir [("a", FSTree.file "x"), ("b", FSTree.file "y")] :=
  ⟨(c5_flatten_rule _).1 "wrap" _ rfl rfl,
   (c5_flatten_rule _).2.2 (by decide)⟩

/-- C6: when extraction or merge fails, a freshly created project directory
(not in-place mode) is removed before the failure is surfaced, while an
in-place target is never deleted and keeps its partially merged state. -/
theorem c6_failure_cleanup (proj0 : Option FSTree)
    (work : FSTree → Option String × FSTree) (e : String) (t1 : FSTree)
    (hw : work (startTree proj0) = (some e, t1)) :
    provisionAttempt false proj0 work = (some e, none)
    ∧ provisionAttempt true proj0 work = (some e, some t1) := by
  unfold provisionAttempt
  rw [hw]
  exact ⟨rfl, rfl⟩

/-- C6 witness: a concrete failing merge deletes a fresh project directory and
leaves an in-place one in its partial state. -/
theorem c6_failure_cleanup_witness :
    provisionAttempt false (some (FSTree.dir [("keep.md", FSTree.file "k")]))
        (fun t => (some "boom", setPath t ["half.md"] (FSTree.file "h"))) =
      (some "boom", none)
    ∧ provisionAttempt true (some (FSTree.dir [("keep.md", FSTree.file "k")]))
        (fun t => (some "boom", setPath t ["half.md"] (FSTree.file "h"))) =
      (some "boom",
        some (setPath (FSTree.dir [("keep.md", FSTree.file "k")]) ["half.md"] (FSTree.file "h"))) :=
  c6_failure_cleanup _ _ "boom" _ rfl

/-! ### Permission normalization (C9, C10) -/

/-- Source: `ensure_executable_scripts` (lines 912-917): starting from the old
mode, mirror each set read bit onto the matching execute bit and force
owner-execute when still missing. -/
def deriveNewMode (mode : Nat) : Nat :=
  let m1 := if mode &&& 0o400 ≠ 0 then mode ||| 0o100 else mode
  let m2 := if mode &&& 0o040 ≠ 0 then m1 ||| 0o010 else m1
  let m3 := if mode &&& 0o004 ≠ 0 then m2 ||| 0o001 else m2
  if m3 &&& 0o100 = 0 then m3 ||| 0o100 else m3

/-- Source: lines 899-918: the per-file guard chain of the permission walk —
symlinks and non-regular files are skipped, then files without a `#!` header,
then files that already carry any execute bit; surviving files get
`deriveNewMode`. -/
def normalizeScriptMode (symlinkFlag regularFlag shebangFlag : Bool) (mode : Nat) :
    Option Nat :=
  if symlinkFlag || !regularFlag then none
  else if !shebangFlag then none
  else if mode &&& 0o111 ≠ 0 then none
  else some (deriveNewMode mode)

theorem land_twopow_eq_zero_iff (m i : Nat) :
    (m &&& 2 ^ i = 0) ↔ m.testBit i = false := by
  rw [Nat.and_two_pow]
  cases h : m.testBit i
  · simp
  · simp [Nat.pow_eq_zero]

theorem lor_twopow_absorb {m i : Nat} (h : m.testBit i = true) : m ||| 2 ^ i = m := by
  apply Nat.eq_of_testBit_eq
  intro j
  rw [Nat.testBit_lor]
  by_cases hj : i = j
  · subst hj
    simp [h, Nat.testBit_two_pow_self]
  · simp [Nat.testBit_two_pow_of_ne hj]

theorem ite_lor_push (c : Prop) [Decidable c] (x k : Nat) :
    (if c then x ||| k else x) = x ||| (if c then k else 0) := by
  by_cases h : c <;> simp [h]

/-- C9: for a regular, non-symlink shebang script with no execute bit set, the
new mode is the old mode with each set read bit mirrored to the corresponding
execute bit and owner-execute forced on; a mode `rw-r--r--` becomes `rwxr-xr-x`
which contains at least `rwxr--r--`; any file with an execute bit already set
is left unchanged. -/
theorem force_owner_exec (x : Nat) :
    (x ||| (if x &&& 0o100 = 0 then 0o100 else 0)) = x ||| 0o100 := by
  by_cases hf : x &&& 0o100 = 0
  · rw [if_pos hf]
  · rw [if_neg hf]
    have h6 : x.testBit 6 = true := by
      rw [show (0o100 : Nat) = 2 ^ 6 by norm_num] at hf
      cases h : x.testBit 6
      · exact absurd ((land_twopow_eq_zero_iff x 6).2 h) hf
      · rfl
    have habs : x ||| 2 ^ 6 = x := lor_twopow_absorb h6
    rw [show (0o100 : Nat) = 2 ^ 6 by norm_num, habs]
    simp

/-- C9: for a regular, non-symlink shebang script with no execute bit set, the
new mode is the old mode with each set read bit mirrored to the corresponding
execute bit and owner-execute forced on; a mode `rw-r--r--` becomes `rwxr-xr-x`
which contains at least `rwxr--r--`; any file with an execute bit already set
is left unchanged. -/
theorem c9_permission_derivation (mode : Nat) (hx : mode &&& 0o111 = 0) :
    normalizeScriptMode false true true mode
      = some ((((mode ||| (if mode &&& 0o400 ≠ 0 then 0o100 else 0))
            ||| (if mode &&& 0o040 ≠ 0 then 0o010 else 0))
            ||| (if mode &&& 0o004 ≠ 0 then 0o001 else 0)) ||| 0o100)
    ∧ (∀ m2, m2 &&& 0o111 ≠ 0 → normalizeScriptMode false true true m2 = none)
    ∧ (normalizeScriptMode false true true 0o644 = some 0o755
        ∧ 0o755 &&& 0o744 = 0o744) := by
  refine ⟨?_, ?_, by decide, by decide⟩
  · have hg : normalizeScriptMode false true true mode = some (deriveNewMode mode) := by
      simp [normalizeScriptMode, hx]
    rw [hg]
    refine congrArg some ?_
    unfold deriveNewMode
    simp only [ite_lor_push]
    exact force_owner_exec _
  · intro m2 h2
    simp [normalizeScriptMode, h2]

/-- C9 witness: the theorem applied at the concrete mode `rw-r--r--`. -/
theorem c9_permission_derivation_witness :
    (0o644 : Nat) &&& 0o111 = 0
    ∧ normalizeScriptMode false true true 0o644
      = some (((((0o644 : Nat) ||| (if (0o644 : Nat) &&& 0o400 ≠ 0 then 0o100 else 0))
            ||| (if (0o644 : Nat) &&& 0o040 ≠ 0 then 0o010 else 0))
            ||| (if (0o644 : Nat) &&& 0o004 ≠ 0 then 0o001 else 0)) ||| 0o100) :=
  ⟨by decide, (c9_permission_derivation 0o644 (by decide)).1⟩

/-- Metadata of one file in the scripts directory: whether it is a symlink,
whether it is a regular file, whether its first two bytes are `#!`, and its
permission mode. -/
structure ScriptMeta where
  symlinkFlag : Bool
  regularFlag : Bool
  shebangFlag : Bool
  mode : Nat

/-- Outcome of the per-file normalization on a file's metadata: `os.chmod` is
called exactly when the guard chain selects a new mode. -/
def applyNormalize (m : ScriptMeta) : ScriptMeta :=
  match normalizeScriptMode m.symlinkFlag m.regularFlag m.shebangFlag m.mode with
  | some nm => { m with mode := nm }
  | none => m

/-- A scripts-directory tree carrying file metadata. -/
inductive ScriptTree where
  | sfile : ScriptMeta → ScriptTree
  | sdir : List (String × ScriptTree) → ScriptTree

/-- Directory entry lookup in a scripts tree. -/
def sChildGet : List (String × ScriptTree) → String → Option ScriptTree
  | [], _ => none
  | (m, v) :: rest, n => if m = n then some v else sChildGet rest n

/-- Path resolution in a scripts tree. -/
def sGetPath : ScriptTree → List String → Option ScriptTree
  | t, [] => some t
  | ScriptTree.sfile _, _ :: _ => none
  | ScriptTree.sdir cs, a :: p =>
    match sChildGet cs a with
    | some c => sGetPath c p
    | none => none

/-- Source: `ensure_executable_scripts` (lines 899-918): the recursive walk
`scripts_root.rglob("*.sh")` visits every directory and touches exactly the
files whose name matches `*.sh`, applying the per-file normalization to them;
everything else is left as is. -/
def ensureExecWalk : ScriptTree → ScriptTree
  | ScriptTree.sfile m => ScriptTree.sfile m
  | ScriptTree.sdir [] => ScriptTree.sdir []
  | ScriptTree.sdir ((n, c) :: rest) =>
    let c' : ScriptTree :=
      match c with
      | ScriptTree.sfile m =>
        if strEndsWithL n ".sh" then ScriptTree.sfile (applyNormalize m)
        else ScriptTree.sfile m
      | ScriptTree.sdir ds => ensureExecWalk (ScriptTree.sdir ds)
    match ensureExecWalk (ScriptTree.sdir rest) with
    | ScriptTree.sdir rest2 => ScriptTree.sdir ((n, c') :: rest2)
    | t => t

/-- The effect of the walk on one directory entry: `*.sh` files are
normalized, other files kept, subdirectories walked recursively. -/
def sStep (n : String) : ScriptTree → ScriptTree
  | ScriptTree.sfile m =>
    if strEndsWithL n ".sh" then ScriptTree.sfile (applyNormalize m)
    else ScriptTree.sfile m
  | ScriptTree.sdir ds => ensureExecWalk (ScriptTree.sdir ds)

theorem ensureExecWalk_sdir (cs : List (String × ScriptTree)) :
    ensureExecWalk (ScriptTree.sdir cs) =
      ScriptTree.sdir (cs.map (fun nc => (nc.1, sStep nc.1 nc.2))) := by
  induction cs with
  | nil => simp [ensureExecWalk]
  | cons hd tl ih =>
    cases hd with
    | mk n c =>
      rw [List.map_cons]
      cases c with
      | sfile m =>
        simp only [ensureExecWalk, ih, sStep]
      | sdir ds =>
        simp only [ensureExecWalk, ih, sStep]

theorem sChildGet_map (f : String → ScriptTree → ScriptTree)
    (cs : List (String × ScriptTree)) (n : String) :
    sChildGet (cs.map (fun nc => (nc.1, f nc.1 nc.2))) n =
      (sChildGet cs n).map (f n) := by
  induction cs with
  | nil => rfl
  | cons hd tl ih =>
    cases hd with
    | mk a c =>
      by_cases he : a = n
      · subst he
        simp [sChildGet]
      · simp only [List.map_cons, sChildGet, if_neg he]
        exact ih

/-- C10: the permission normalizer touches only `*.sh` files: every file under
the scripts directory whose name does not end in `.sh` keeps its metadata
(mode included) unchanged, whatever its symlink, regular-file, shebang and
execute-bit state. -/
theorem c10_only_sh_files_touched (t : ScriptTree) (p : List String) (name : String)
    (m : ScriptMeta) (hns : strEndsWithL name ".sh" = false)
    (hfile : sGetPath t (p ++ [name]) = some (ScriptTree.sfile m)) :
    sGetPath (ensureExecWalk t) (p ++ [name]) = some (ScriptTree.sfile m) := by
  induction p generalizing t with
  | nil =>
    cases t with
    | sfile m2 => simp [sGetPath] at hfile
    | sdir cs =>
      rw [ensureExecWalk_sdir]
      simp only [List.nil_append, sGetPath] at hfile ⊢
      rw [sChildGet_map sStep]
      cases hg : sChildGet cs name with
      | none =>
        rw [hg] at hfile
        simp at hfile
      | some c =>
        rw [hg] at hfile
        cases c with
        | sfile m3 =>
          simp only [sGetPath] at hfile
          cases hfile
          simp [hns, sStep, sGetPath]
        | sdir ds =>
          simp [sGetPath] at hfile
  | cons a p2 ih =>
    cases t with
    | sfile m2 => simp [sGetPath] at hfile
    | sdir cs =>
      rw [ensureExecWalk_sdir]
      simp only [List.cons_append, sGetPath] at hfile ⊢
      rw [sChildGet_map sStep]
      cases hg : sChildGet cs a with
      | none =>
        rw [hg] at hfile
        simp at hfile
      | some c =>
        rw [hg] at hfile
        cases c with
        | sfile m3 =>
          cases p2 with
          | nil => simp [sGetPath] at hfile
          | cons x xs => simp [sGetPath] at hfile
        | sdir ds =>
          show sGetPath (sStep a (ScriptTree.sdir ds)) (p2 ++ [name]) = _
          rw [show sStep a (ScriptTree.sdir ds) = ensureExecWalk (ScriptTree.sdir ds) from rfl]
          exact ih _ hfile

/-- C10 witness: a non-`.sh` shebang file with no execute bits keeps its
metadata after the walk, while a sibling `.sh` file is the one normalized. -/
theorem c10_only_sh_files_touched_witness :
    strEndsWithL "b.txt" ".sh" = false
    ∧ sGetPath (ensureExecWalk (ScriptTree.sdir [("a", ScriptTree.sdir
        [("b.txt", ScriptTree.sfile ⟨false, true, true, 0o644⟩),
         ("c.sh", ScriptTree.sfile ⟨false, true, true, 0o644⟩)])]))
        (["a"] ++ ["b.txt"])
      = some (ScriptTree.sfile ⟨false, true, true, 0o644⟩) :=
  ⟨by decide,
   c10_only_sh_files_touched _ ["a"] "b.txt" _ (by decide) rfl⟩

/-! ### Multi-agent preserve flag (C4) -/

/-- Source: constant `AGENT_DIRECTORY_MAP` (lines 82-94). -/
def AGENT_DIRECTORY_MAP : List (String × String) :=
  [("claude", ".claude/"), ("gemini", ".gemini/"), ("cursor", ".cursor/"),
   ("qwen", ".qwen/"), ("opencode", ".opencode/"), ("codex", ".codex/"),
   ("windsurf", ".windsurf/"), ("kilocode", ".kilocode/"), ("auggie", ".augment/"),
   ("copilot", ".github/"), ("roo", ".roo/")]

/-- Dictionary lookup (`dict.get`). -/
def assocLookupStr : List (String × String) → String → Option String
  | [], _ => none
  | (k, v) :: rest, key => if k = key then some v else assocLookupStr rest key

/-- Characters of a path up to the first separator (`Path(p).parts[0]` for the
relative one-component values stored in `AGENT_DIRECTORY_MAP`). -/
def firstPartData : List Char → List Char
  | [] => []
  | c :: rest => if c = '/' then [] else c :: firstPartData rest

/-- Source: line 96: `AGENT_ROOT_NAMES = {key: Path(path).parts[0] ...}`,
realised as a lookup: the agent-root directory name for a known agent key. -/
def agentRootName (key : String) : Option String :=
  (assocLookupStr AGENT_DIRECTORY_MAP key).map (fun p => String.mk (firstPartData p.data))

/-- Python truthiness of the optional agent root (`if agent_root:`). -/
def optTruthy : Option String → Bool
  | none => false
  | some s => !(s = "")

/-- Source: `init` (lines 1325-1329): the preserve flag for the agent at
1-based position `idx`, given the running specs-present flag and the agent's
root name. -/
def computePreserve (idx : Nat) (existing : Bool) (root : Option String) : Bool :=
  if idx == 1 && existing then true
  else if decide (1 < idx) && !(optTruthy root) then true
  else false

/-- Source: `init` (lines 1320-1323): the top-level filter for the agent at
1-based position `idx`. -/
def computeTopLevel (idx : Nat) (root : Option String) : Option (List String) :=
  if decide (1 < idx) && optTruthy root then
    match root with
    | some r => some [r]
    | none => none
  else none

/-- Source: `init` (lines 1316-1351): the selection loop, threading the
running `existing_specs_present` flag: each agent is described by its key and
by whether `.specs` exists after its merge; the loop yields every agent's
(filter, preserve-flag) pair. -/
def initFlagsAux (idx : Nat) (existing : Bool) :
    List (String × Bool) → List (Option (List String) × Bool)
  | [] => []
  | (key, specsAfter) :: rest =>
    let root := agentRootName key
    (computeTopLevel idx root, computePreserve idx existing root)
      :: initFlagsAux (idx + 1) (existing || specsAfter) rest

/-- The whole run starts at `idx = 1` with the pre-run `.specs` existence. -/
def initFlags (agents : List (String × Bool)) (existing0 : Bool) :
    List (Option (List String) × Bool) :=
  initFlagsAux 1 existing0 agents

theorem computePreserve_first (ex : Bool) (root : Option String) :
    computePreserve 1 ex root = ex := by
  cases ex <;> simp [computePreserve]

theorem computePreserve_later (k : Nat) (hk : 2 ≤ k) (ex : Bool) (root : Option String) :
    computePreserve k ex root = !(optTruthy root) := by
  have h1 : (k == 1) = false := by
    simp only [beq_eq_false_iff_ne, ne_eq]
    omega
  have h2 : decide (1 < k) = true := by
    simp only [decide_eq_true_eq]
    omega
  cases hr : optTruthy root <;> simp [computePreserve, h1, h2, hr]

theorem initFlagsAux_get (l : List (String × Bool)) :
    ∀ (idx : Nat) (ex : Bool) (i : Nat) (key : String) (after : Bool)
      (pr : Option (List String) × Bool),
      l.get? i = some (key, after) →
      (initFlagsAux idx ex l).get? i = some pr →
      ∃ ex2, pr = (computeTopLevel (idx + i) (agentRootName key),
          computePreserve (idx + i) ex2 (agentRootName key))
        ∧ (i = 0 → ex2 = ex) := by
  induction l with
  | nil =>
    intro idx ex i key after pr hk hp
    simp at hk
  | cons hd tl ih =>
    intro idx ex i key after pr hk hp
    cases hd with
    | mk k0 a0 =>
      cases i with
      | zero =>
        simp only [List.get?_cons_zero] at hk hp
        cases hk
        cases hp
        exact ⟨ex, by simp⟩
      | succ j =>
        simp only [List.get?_cons_succ] at hk
        simp only [initFlagsAux, List.get?_cons_succ] at hp
        obtain ⟨ex2, hpr, _⟩ := ih (idx + 1) (ex || a0) j key after pr hk hp
        refine ⟨ex2, ?_, by omega⟩
        rw [hpr]
        congr 2 <;> omega

/-- C4: in a multi-agent run processed in selection order, agent `i`'s
PreserveExistingSpecsFlag is true exactly when `i` is the first agent and the
specs subtree already exists per the running flag, or `i` is a later agent
whose filter does not name a known agent root (equivalently, whose key has no
truthy agent-root name); moreover a later agent's filter is absent exactly
when its key has no truthy agent-root name. -/
theorem c4_preserve_flag (agents : List (String × Bool)) (existing0 : Bool)
    (i : Nat) (key : String) (after : Bool) (pr : Option (List String) × Bool)
    (hk : agents.get? i = some (key, after))
    (hp : (initFlags agents existing0).get? i = some pr) :
    (pr.2 = true ↔ ((i = 0 ∧ existing0 = true)
        ∨ (0 < i ∧ optTruthy (agentRootName key) = false)))
    ∧ (0 < i → (pr.1 = none ↔ optTruthy (agentRootName key) = false)) := by
  obtain ⟨ex2, hpr, hex⟩ := initFlagsAux_get agents 1 existing0 i key after pr hk hp
  cases i with
  | zero =>
    rw [hex rfl] at hpr
    subst hpr
    refine ⟨?_, fun h0 => absurd h0 (by omega)⟩
    show computePreserve (1 + 0) existing0 (agentRootName key) = true ↔ _
    rw [show (1 + 0) = 1 from rfl, computePreserve_first]
    simp
  | succ j =>
    subst hpr
    constructor
    · show computePreserve (1 + (j + 1)) ex2 (agentRootName key) = true ↔ _
      rw [computePreserve_later (1 + (j + 1)) (by omega)]
      cases hr : optTruthy (agentRootName key) <;> simp
    · intro _
      show computeTopLevel (1 + (j + 1)) (agentRootName key) = none ↔ _
      unfold computeTopLevel
      have h2 : decide (1 < 1 + (j + 1)) = true := by
        simp only [decide_eq_true_eq]
        omega
      cases hr : optTruthy (agentRootName key) with
      | false => simp [h2]
      | true =>
        simp only [h2, Bool.true_and, if_true]
        cases hroot : agentRootName key with
        | none => rw [hroot] at hr; simp [optTruthy] at hr
        | some r => simp

/-- C4 witness: with no pre-existing specs, the first agent gets a false flag,
a later known agent (with its own root filter) gets a false flag, and a later
key with no known agent root gets a true flag and no filter. -/
theorem c4_preserve_flag_witness :
    ((initFlags [("claude", true), ("copilot", true), ("other", true)] false).get? 2
        = some ((none : Option (List String)), true))
    ∧ (((none : Option (List String)), true).2 = true ↔ ((2 = 0 ∧ false = true)
        ∨ (0 < 2 ∧ optTruthy (agentRootName "other") = false))) :=
  ⟨by decide,
   (c4_preserve_flag [("claude", true), ("copilot", true), ("other", true)] false
      2 "other" true ((none : Option (List String)), true) (by decide) (by decide)).1⟩

/-! ### Merge engine (C1, C2) -/

/-- Source: `_copytree_preserve` (lines 772-786): copy a directory tree into a
destination, never replacing anything that already exists.  A missing
destination is copied wholesale (`shutil.copytree`); an existing destination is
merged child by child: directory children recurse, file children are copied
only when nothing exists at the target path.  The error branches of the source
(`mkdir` on an existing file, iterating a file) modify nothing before raising
and are modelled as leaving the destination unchanged. -/
def preserveMerge : FSTree → Option FSTree → FSTree
  | src, none => src
  | FSTree.file _, some d => d
  | FSTree.dir [], some d => d
  | FSTree.dir ((n, c) :: rest), some d =>
    let d2 : FSTree :=
      match d with
      | FSTree.file s => FSTree.file s
      | FSTree.dir dcs =>
        match c with
        | FSTree.dir cs2 =>
          FSTree.dir (childSet dcs n (preserveMerge (FSTree.dir cs2) (childGet dcs n)))
        | FSTree.file _ =>
          match childGet dcs n with
          | some _ => FSTree.dir dcs
          | none => FSTree.dir (childSet dcs n c)
    preserveMerge (FSTree.dir rest) (some d2)
termination_by src _ => sizeOf src
decreasing_by
  all_goals simp_wf
  all_goals omega

/-- Source: `shutil.copytree(item, dest_path, dirs_exist_ok=True)` (line 807):
copy a directory tree over a destination, overwriting files at colliding
paths; directory children merge recursively; colliding file/directory kinds
raise in the source and are modelled as leaving the destination entry
unchanged. -/
def overwriteMerge : FSTree → Option FSTree → FSTree
  | src, none => src
  | FSTree.file c, some d =>
    match d with
    | FSTree.dir dcs => FSTree.dir dcs
    | FSTree.file _ => FSTree.file c
  | FSTree.dir [], some d => d
  | FSTree.dir ((n, c) :: rest), some d =>
    let d2 : FSTree :=
      match d with
      | FSTree.file s => FSTree.file s
      | FSTree.dir dcs =>
        FSTree.dir (childSet dcs n (overwriteMerge c (childGet dcs n)))
    overwriteMerge (FSTree.dir rest) (some d2)
termination_by src _ => sizeOf src
decreasing_by
  all_goals simp_wf
  all_goals omega

/-- Source: `_merge_into_project` (lines 788-810): for each top-level payload
entry, skip it when a filter is set and does not contain its name; merge the
reserved `.specs` subtree preservingly when the flag is set and the
destination exists; otherwise copy directories with overwrite semantics and
files with `copy2`.  (The self-copy guard `dest_path == item.resolve()`
compares absolute filesystem locations; payload and project are distinct
locations here, so it never fires in this model.) -/
def mergeTop (fset : Option (List String)) (preserve : Bool) :
    List (String × FSTree) → FSTree → FSTree
  | [], proj => proj
  | (name, item) :: rest, proj =>
    let skip : Bool :=
      match fset with
      | some fs => !(fs.contains name)
      | none => false
    let proj2 : FSTree :=
      if skip then proj
      else if preserve && name == ".specs" && existsB proj [name] then
        setPath proj [name] (preserveMerge item (getPath proj [name]))
      else
        match item with
        | FSTree.dir _ => setPath proj [name] (overwriteMerge item (getPath proj [name]))
        | FSTree.file _ =>
          match getPath proj [name] with
          | some (FSTree.dir _) => proj
          | _ => setPath proj [name] item
    mergeTop fset preserve rest proj2

/-- One merge invocation: iterate the payload root's top-level entries. -/
def merge_into_project (payload proj : FSTree) (fset : Option (List String))
    (preserve : Bool) : FSTree :=
  match payload with
  | FSTree.dir items => mergeTop fset preserve items proj
  | FSTree.file _ => proj

/-- The no-clobber contract between a destination tree and its update: files
keep their content, new files appear only at previously empty paths, and no
entry disappears. -/
def PreserveOk (d d2 : FSTree) : Prop :=
  (∀ p c, getPath d p = some (FSTree.file c) → getPath d2 p = some (FSTree.file c))
  ∧ (∀ p c, getPath d2 p = some (FSTree.file c) →
      getPath d p = some (FSTree.file c) ∨ getPath d p = none)
  ∧ (∀ p, (getPath d p).isSome = true → (getPath d2 p).isSome = true)

theorem PreserveOk_refl (d : FSTree) : PreserveOk d d :=
  ⟨fun _ _ h => h, fun _ _ h => Or.inl h, fun _ h => h⟩

theorem PreserveOk_trans {a b c : FSTree} (h1 : PreserveOk a b) (h2 : PreserveOk b c) :
    PreserveOk a c := by
  obtain ⟨k1, r1, m1⟩ := h1
  obtain ⟨k2, r2, m2⟩ := h2
  refine ⟨fun p s h => k2 p s (k1 p s h), ?_, fun p h => m2 p (m1 p h)⟩
  intro p s h
  rcases r2 p s h with h3 | h3
  · exact r1 p s h3
  · right
    cases hg : getPath a p with
    | none => rfl
    | some v =>
      have := m1 p (by rw [hg]; rfl)
      rw [h3] at this
      cases this

theorem getPath_dir_cons (dcs : List (String × FSTree)) (a : String) (q : List String) :
    getPath (FSTree.dir dcs) (a :: q) =
      match childGet dcs a with
      | some c => getPath c q
      | none => none := rfl

/-- Replacing an existing child by a no-clobber update keeps the contract. -/
theorem step_set_ok (dcs : List (String × FSTree)) (n : String) {sub v : FSTree}
    (hsub : childGet dcs n = some sub) (hv : PreserveOk sub v) :
    PreserveOk (FSTree.dir dcs) (FSTree.dir (childSet dcs n v)) := by
  obtain ⟨k1, r1, m1⟩ := hv
  refine ⟨?_, ?_, ?_⟩
  · intro p c h
    cases p with
    | nil => rw [getPath_nil] at h; cases h
    | cons a q =>
      rw [getPath_dir_cons] at h
      rw [getPath_dir_cons]
      by_cases ha : a = n
      · subst ha
        rw [hsub] at h
        rw [childGet_childSet_same]
        exact k1 q c h
      · rw [childGet_childSet_ne _ _ ha]
        exact h
  · intro p c h
    cases p with
    | nil => rw [getPath_nil] at h; cases h
    | cons a q =>
      rw [getPath_dir_cons] at h
      rw [getPath_dir_cons]
      by_cases ha : a = n
      · subst ha
        rw [childGet_childSet_same] at h
        rw [hsub]
        exact r1 q c h
      · rw [childGet_childSet_ne _ _ ha] at h
        exact Or.inl h
  · intro p h
    cases p with
    | nil => rw [getPath_nil]; rfl
    | cons a q =>
      rw [getPath_dir_cons] at h
      rw [getPath_dir_cons]
      by_cases ha : a = n
      · subst ha
        rw [hsub] at h
        rw [childGet_childSet_same]
        exact m1 q h
      · rw [childGet_childSet_ne _ _ ha]
        exact h
/-- Adding a child at a previously missing name keeps the contract, whatever
is added. -/
theorem step_add_ok (dcs : List (String × FSTree)) (n : String) (v : FSTree)
    (hnone : childGet dcs n = none) :
    PreserveOk (FSTree.dir dcs) (FSTree.dir (childSet dcs n v)) := by
  refine ⟨?_, ?_, ?_⟩
  · intro p c h
    cases p with
    | nil => rw [getPath_nil] at h; cases h
    | cons a q =>
      rw [getPath_dir_cons] at h
      rw [getPath_dir_cons]
      by_cases ha : a = n
      · subst ha
        rw [hnone] at h
        cases h
      · rw [childGet_childSet_ne _ _ ha]
        exact h
  · intro p c h
    cases p with
    | nil => rw [getPath_nil] at h; cases h
    | cons a q =>
      rw [getPath_dir_cons] at h
      rw [getPath_dir_cons]
      by_cases ha : a = n
      · subst ha
        rw [hnone]
        exact Or.inr rfl
      · rw [childGet_childSet_ne _ _ ha] at h
        exact Or.inl h
  · intro p h
    cases p with
    | nil => rw [getPath_nil]; rfl
    | cons a q =>
      rw [getPath_dir_cons] at h
      rw [getPath_dir_cons]
      by_cases ha : a = n
      · subst ha
        rw [hnone] at h
        cases h
      · rw [childGet_childSet_ne _ _ ha]
        exact h

/-- `_copytree_preserve` satisfies the no-clobber contract against any
existing destination. -/
theorem preserveMerge_ok (src : FSTree) (dOpt : Option FSTree) :
    ∀ d, dOpt = some d → PreserveOk d (preserveMerge src dOpt) := by
  induction src, dOpt using preserveMerge.induct with
  | case1 src => intro d h; cases h
  | case2 c d =>
    intro d2 h
    cases h
    simp only [preserveMerge]
    exact PreserveOk_refl _
  | case3 d =>
    intro d2 h
    cases h
    simp only [preserveMerge]
    exact PreserveOk_refl _
  | case4 n c rest d d2 ih_inner ih_tail =>
    intro d0 h
    cases h
    cases d with
    | file s =>
      rw [preserveMerge.eq_4]
      exact ih_tail _ rfl
    | dir dcs =>
      cases c with
      | dir cs2 =>
        rw [preserveMerge.eq_5]
        refine PreserveOk_trans ?_ (ih_tail _ rfl)
        show PreserveOk (FSTree.dir dcs)
          (FSTree.dir (childSet dcs n (preserveMerge (FSTree.dir cs2) (childGet dcs n))))
        cases hg : childGet dcs n with
        | some sub =>
          have hv := ih_inner dcs sub hg
          rw [hg] at hv
          exact step_set_ok dcs n hg hv
        | none =>
          exact step_add_ok dcs n _ hg
      | file a =>
        rw [preserveMerge.eq_6]
        refine PreserveOk_trans ?_ (ih_tail _ rfl)
        show PreserveOk (FSTree.dir dcs)
          (match childGet dcs n with
           | some _ => FSTree.dir dcs
           | none => FSTree.dir (childSet dcs n (FSTree.file a)))
        cases hg : childGet dcs n with
        | some sub =>
          exact PreserveOk_refl _
        | none =>
          exact step_add_ok dcs n _ hg

theorem getPath_cons_of_single {t d : FSTree} {a : String}
    (h : getPath t [a] = some d) (q : List String) :
    getPath t (a :: q) = getPath d q := by
  rw [getPath_single] at h
  rw [getPath_cons, h, Option.some_bind]

/-- The running invariant of one preserving merge pass: the reserved `.specs`
destination subtree always exists and is only updated no-clobberingly. -/
theorem mergeTop_specs_ok (fset : Option (List String)) (items : List (String × FSTree)) :
    ∀ (proj d : FSTree), getPath proj [".specs"] = some d →
      ∃ d2, getPath (mergeTop fset true items proj) [".specs"] = some d2
        ∧ PreserveOk d d2 := by
  induction items with
  | nil =>
    intro proj d hd
    exact ⟨d, hd, PreserveOk_refl d⟩
  | cons hd0 rest ih =>
    intro proj d hd
    cases hd0 with
    | mk name item =>
      simp only [mergeTop]
      cases hS : (match fset with
        | some fs => !(fs.contains name)
        | none => false) with
      | true =>
        rw [if_pos rfl]
        exact ih proj d hd
      | false =>
        rw [if_neg (by simp)]
        by_cases hname : name = ".specs"
        · subst hname
          have hex : existsB proj [".specs"] = true := by
            unfold existsB
            rw [hd]
            rfl
          rw [if_pos (by simp [hex])]
          have hset : getPath (setPath proj [".specs"]
              (preserveMerge item (getPath proj [".specs"]))) [".specs"]
              = some (preserveMerge item (some d)) := by
            rw [hd, getPath_setPath_same]
          obtain ⟨d2, hd2, hok⟩ := ih _ _ hset
          exact ⟨d2, hd2, PreserveOk_trans (preserveMerge_ok item (some d) d rfl) hok⟩
        · have hbeq : (name == ".specs") = false := by
            simp only [beq_eq_false_iff_ne, ne_eq]
            exact hname
          rw [if_neg (by simp [hbeq])]
          have hspec : (".specs" : String) ≠ name := fun hh => hname hh.symm
          cases item with
          | dir ics =>
            refine ih _ d ?_
            show getPath (setPath proj (name :: []) _) (".specs" :: []) = some d
            rw [getPath_setPath_ne _ _ _ _ hspec]
            exact hd
          | file cont =>
            cases hgp : getPath proj [name] with
            | some v =>
              cases v with
              | dir dcs =>
                exact ih _ d hd
              | file c2 =>
                refine ih _ d ?_
                show getPath (setPath proj (name :: []) _) (".specs" :: []) = some d
                rw [getPath_setPath_ne _ _ _ _ hspec]
                exact hd
            | none =>
              refine ih _ d ?_
              show getPath (setPath proj (name :: []) _) (".specs" :: []) = some d
              rw [getPath_setPath_ne _ _ _ _ hspec]
              exact hd

/-- C1: a preserving merge (PreserveExistingSpecsFlag true) whose payload
contains the reserved `.specs` subtree and whose destination already has it
keeps every file under the destination's specs subtree at its path with its
original content, and adds files only at paths where no entry previously
existed. -/
theorem c1_preserve_no_clobber (items : List (String × FSTree)) (proj : FSTree)
    (fset : Option (List String))
    (_hpayload : ".specs" ∈ items.map Prod.fst)
    (hdest : existsB proj [".specs"] = true) :
    (∀ rest c, getPath proj (".specs" :: rest) = some (FSTree.file c) →
        getPath (merge_into_project (FSTree.dir items) proj fset true) (".specs" :: rest)
          = some (FSTree.file c))
    ∧ (∀ rest c,
        getPath (merge_into_project (FSTree.dir items) proj fset true) (".specs" :: rest)
          = some (FSTree.file c) →
        getPath proj (".specs" :: rest) = some (FSTree.file c)
          ∨ getPath proj (".specs" :: rest) = none) := by
  unfold existsB at hdest
  cases hget : getPath proj [".specs"] with
  | none =>
    rw [hget] at hdest
    cases hdest
  | some d0 =>
    obtain ⟨d2, hd2, hk, hr, _⟩ := mergeTop_specs_ok fset items proj d0 hget
    constructor
    · intro rest c h
      rw [getPath_cons_of_single hget rest] at h
      show getPath (mergeTop fset true items proj) (".specs" :: rest) = _
      rw [getPath_cons_of_single hd2 rest]
      exact hk rest c h
    · intro rest c h
      rw [show merge_into_project (FSTree.dir items) proj fset true
          = mergeTop fset true items proj from rfl] at h
      rw [getPath_cons_of_single hd2 rest] at h
      rw [getPath_cons_of_single hget rest]
      exact hr rest c h

/-- C1 witness: the theorem applied to a payload and destination that collide
on `.specs/foo.md`; the destination's original content survives. -/
theorem c1_preserve_no_clobber_witness :
    getPath (merge_into_project
        (FSTree.dir [(".specs",
          FSTree.dir [("foo.md", FSTree.file "new"), ("bar.md", FSTree.file "b")])])
        (FSTree.dir [(".specs", FSTree.dir [("foo.md", FSTree.file "old")])])
        none true)
      [".specs", "foo.md"] = some (FSTree.file "old") :=
  (c1_preserve_no_clobber
    [(".specs", FSTree.dir [("foo.md", FSTree.file "new"), ("bar.md", FSTree.file "b")])]
    (FSTree.dir [(".specs", FSTree.dir [("foo.md", FSTree.file "old")])])
    none (by decide) (by decide)).1 ["foo.md"] "old" rfl

/-- One filtered merge pass never touches a top-level name outside the filter
set. -/
theorem mergeTop_filter_frame (fs : List String) (preserve : Bool) (name : String)
    (rest : List String) (hname : name ∉ fs) :
    ∀ (items : List (String × FSTree)) (proj : FSTree),
      getPath (mergeTop (some fs) preserve items proj) (name :: rest)
        = getPath proj (name :: rest) := by
  intro items
  induction items with
  | nil =>
    intro proj
    rfl
  | cons hd0 tl ih =>
    intro proj
    cases hd0 with
    | mk nm item =>
      simp only [mergeTop]
      rw [ih]
      by_cases hC : fs.contains nm = true
      · have hmem : nm ∈ fs := List.mem_of_elem_eq_true hC
        have hne : name ≠ nm := fun he => hname (he ▸ hmem)
        have hframe : ∀ v, getPath (setPath proj (nm :: []) v) (name :: rest)
            = getPath proj (name :: rest) :=
          fun v => getPath_setPath_ne proj _ _ v hne
        rw [if_neg (by rw [hC]; simp)]
        by_cases hguard : (preserve && nm == ".specs" && existsB proj [nm]) = true
        · rw [if_pos hguard]
          exact hframe _
        · rw [if_neg hguard]
          cases item with
          | dir ics => exact hframe _
          | file cont =>
            cases hgp : getPath proj [nm] with
            | some v =>
              cases v with
              | dir dcs => rfl
              | file c2 => exact hframe _
            | none => exact hframe _
      · have hCf : fs.contains nm = false := by
          cases h2 : fs.contains nm
          · rfl
          · exact absurd h2 hC
        rw [if_pos (by rw [hCf]; rfl)]

/-- C2: when a merge runs with a top-level filter, every payload top-level
entry whose name is not in the filter set is skipped entirely: the project
tree is unchanged at every path that starts with a name outside the filter
set; in particular, an agent N>1 merging with the filter equal to its own
agent-root name creates or modifies nothing outside that name. -/
theorem c2_agent_filter_frame (payload proj : FSTree) (fs : List String)
    (preserve : Bool) (name : String) (rest : List String) (hname : name ∉ fs) :
    getPath (merge_into_project payload proj (some fs) preserve) (name :: rest)
      = getPath proj (name :: rest) := by
  cases payload with
  | file c => rfl
  | dir items => exact mergeTop_filter_frame fs preserve name rest hname items proj

/-- C2 witness: with the filter `[".claude"]`, a payload `README.md` is not
copied and the project's own `README.md` survives untouched. -/
theorem c2_agent_filter_frame_witness :
    ("README.md" ∉ [".claude"])
    ∧ getPath (merge_into_project
        (FSTree.dir [(".claude", FSTree.dir [("x.md", FSTree.file "x")]),
                     ("README.md", FSTree.file "payload")])
        (FSTree.dir [("README.md", FSTree.file "orig")])
        (some [".claude"]) false)
      ["README.md"]
      = getPath (FSTree.dir [("README.md", FSTree.file "orig")]) ["README.md"] :=
  ⟨by decide,
   c2_agent_filter_frame
    (FSTree.dir [(".claude", FSTree.dir [("x.md", FSTree.file "x")]),
                 ("README.md", FSTree.file "payload")])
    (FSTree.dir [("README.md", FSTree.file "orig")])
    [".claude"] false "README.md" [] (by decide)⟩

/-! ### Local template discovery (C8) -/

/-- One entry of the override directory listing: its name and whether it is a
directory. -/
structure DirEntry where
  ename : String
  edir : Bool
deriving DecidableEq

/-- Glob `pre*suf` on a name: the prefix must match and the suffix must fit in
the remainder (the star may match the empty run). -/
def globStarMatch (pre suf name : List Char) : Bool :=
  pre.isPrefixOf name && suf.isSuffixOf (name.drop pre.length)

/-- Insert into an ascending-by-name list (`sorted`). -/
def insertSorted (e : DirEntry) : List DirEntry → List DirEntry
  | [] => [e]
  | x :: xs =>
    if e.ename.data ≤ x.ename.data then e :: x :: xs
    else x :: insertSorted e xs

/-- Ascending sort by name, as Python's `sorted` over the glob results. -/
def sortByName : List DirEntry → List DirEntry
  | [] => []
  | x :: xs => insertSorted x (sortByName xs)

/-- Source: `find_agent_template_variant` (lines 359-373): for one glob
pattern, sort the candidates, walk them in reverse and return the first of the
wanted kind (`is_dir` for directory patterns, `is_file` for archives). -/
def pickLast (entries : List DirEntry) (pat : DirEntry → Bool) (wantDir : Bool) :
    Option DirEntry :=
  ((sortByName (entries.filter pat)).reverse).find? (fun e => e.edir == wantDir)

/-- Source: `find_agent_template_variant` (lines 352-374): try the exact
directory name `sdd-<agent>-package-<script>`, then the version-suffixed
directory pattern, then the exact archive name
`spec-kit-template-<agent>-<script>.zip`, then the version-suffixed archive
pattern; within a pattern, the lexicographically last candidate of the right
kind wins. -/
def find_agent_template_variant (entries : List DirEntry) (agent script : String) :
    Option String :=
  match pickLast entries
      (fun e => e.ename = "sdd-" ++ agent ++ "-package-" ++ script) true with
  | some e => some e.ename
  | none =>
  match pickLast entries
      (fun e => strStartsWithL e.ename
        (("sdd-" ++ agent ++ "-package-" ++ script) ++ "-")) true with
  | some e => some e.ename
  | none =>
  match pickLast entries
      (fun e => e.ename = ("spec-kit-template-" ++ agent ++ "-" ++ script) ++ ".zip")
      false with
  | some e => some e.ename
  | none =>
  match pickLast entries
      (fun e => globStarMatch (("spec-kit-template-" ++ agent ++ "-" ++ script) ++ "-").data
        ".zip".data e.ename.data) false with
  | some e => some e.ename
  | none => none

/-- Modelled from the claim's wording, for comparison only: directories named
`*-<agent>-package-<script>` with an optional version suffix, archives named
`*-template-<agent>-<script>*.zip`; the lexicographically last match of a
kind, directories preferred over archives. -/
def claimC8find (entries : List DirEntry) (agent script : String) : Option String :=
  let core := "-" ++ agent ++ "-package-" ++ script
  let zcore := "-template-" ++ agent ++ "-" ++ script
  let dirCands := entries.filter (fun e =>
    e.edir && (strEndsWithL e.ename core || strContainsSub e.ename (core ++ "-")))
  let zipCands := entries.filter (fun e =>
    !e.edir && strEndsWithL e.ename ".zip"
      && listContainsSub zcore.data (e.ename.data.take (e.ename.data.length - 4)))
  match ((sortByName dirCands).reverse).head? with
  | some e => some e.ename
  | none => (((sortByName zipCands).reverse).head?).map DirEntry.ename

theorem mem_insertSorted {e a : DirEntry} {l : List DirEntry} :
    a ∈ insertSorted e l ↔ a = e ∨ a ∈ l := by
  induction l with
  | nil => simp [insertSorted]
  | cons x xs ih =>
    by_cases h : e.ename.data ≤ x.ename.data
    · simp [insertSorted, h, List.mem_cons]
    · simp only [insertSorted, if_neg h, List.mem_cons, ih]
      tauto

theorem mem_sortByName {a : DirEntry} {l : List DirEntry} :
    a ∈ sortByName l ↔ a ∈ l := by
  induction l with
  | nil => simp [sortByName]
  | cons x xs ih =>
    simp only [sortByName, mem_insertSorted, List.mem_cons, ih]

theorem pairwise_insertSorted {e : DirEntry} {l : List DirEntry}
    (h : l.Pairwise (fun a b => a.ename.data ≤ b.ename.data)) :
    (insertSorted e l).Pairwise (fun a b => a.ename.data ≤ b.ename.data) := by
  induction l with
  | nil => simp [insertSorted]
  | cons x xs ih =>
    rcases List.pairwise_cons.1 h with ⟨hx, hxs⟩
    by_cases hle : e.ename.data ≤ x.ename.data
    · rw [insertSorted, if_pos hle]
      refine List.pairwise_cons.2 ⟨?_, h⟩
      intro b hb
      rcases List.mem_cons.1 hb with h1 | h2
      · exact h1 ▸ hle
      · exact le_trans hle (hx b h2)
    · rw [insertSorted, if_neg hle]
      refine List.pairwise_cons.2 ⟨?_, ih hxs⟩
      intro b hb
      rcases mem_insertSorted.1 hb with h1 | h2
      · exact h1 ▸ le_of_not_le hle
      · exact hx b h2

theorem pairwise_sortByName (l : List DirEntry) :
    (sortByName l).Pairwise (fun a b => a.ename.data ≤ b.ename.data) := by
  induction l with
  | nil => simp [sortByName]
  | cons x xs ih => exact pairwise_insertSorted ih

theorem find_desc_max {l : List DirEntry} {q : DirEntry → Bool} {r : DirEntry}
    (hp : l.Pairwise (fun a b => b.ename.data ≤ a.ename.data))
    (hf : l.find? q = some r) :
    ∀ e ∈ l, q e = true → e.ename.data ≤ r.ename.data := by
  induction l with
  | nil => simp at hf
  | cons x xs ih =>
    rcases List.pairwise_cons.1 hp with ⟨hx, hxs⟩
    rw [List.find?_cons] at hf
    intro e he hq
    cases hqx : q x with
    | true =>
      rw [hqx] at hf
      cases hf
      rcases List.mem_cons.1 he with h1 | h2
      · exact h1 ▸ le_refl _
      · exact hx e h2
    | false =>
      rw [hqx] at hf
      rcases List.mem_cons.1 he with h1 | h2
      · rw [h1] at hq
        rw [hq] at hqx
        cases hqx
      · exact ih hxs hf e h2 hq

theorem pickLast_max {entries : List DirEntry} {pat : DirEntry → Bool}
    {wantDir : Bool} {r : DirEntry}
    (h : pickLast entries pat wantDir = some r) :
    r ∈ entries ∧ pat r = true ∧ r.edir = wantDir
      ∧ ∀ e ∈ entries, pat e = true → e.edir = wantDir →
          e.ename.data ≤ r.ename.data := by
  unfold pickLast at h
  have hmem : r ∈ (sortByName (entries.filter pat)).reverse :=
    List.mem_of_find?_eq_some h
  have hq := List.find?_some h
  simp only [beq_iff_eq] at hq
  have hrmem : r ∈ entries.filter pat := by
    rw [List.mem_reverse] at hmem
    exact mem_sortByName.1 hmem
  have hrent : r ∈ entries := List.mem_of_mem_filter hrmem
  have hrpat : pat r = true := List.of_mem_filter hrmem
  refine ⟨hrent, hrpat, hq, ?_⟩
  intro e he hpe hde
  have hdesc : ((sortByName (entries.filter pat)).reverse).Pairwise
      (fun a b => b.ename.data ≤ a.ename.data) := by
    rw [List.pairwise_reverse]
    exact pairwise_sortByName _
  refine find_desc_max hdesc h e ?_ (by simp [hde])
  rw [List.mem_reverse, mem_sortByName]
  exact List.mem_filter.2 ⟨he, hpe⟩

theorem pickLast_isSome (entries : List DirEntry) (pat : DirEntry → Bool)
    (wantDir : Bool) {e : DirEntry} (he : e ∈ entries) (hp : pat e = true)
    (hd : e.edir = wantDir) : ∃ r, pickLast entries pat wantDir = some r := by
  unfold pickLast
  have hmem : e ∈ (sortByName (entries.filter pat)).reverse := by
    rw [List.mem_reverse, mem_sortByName]
    exact List.mem_filter.2 ⟨he, hp⟩
  have hpred : (fun x : DirEntry => x.edir == wantDir) e = true := by
    show (e.edir == wantDir) = true
    rw [hd]
    simp
  have := (@List.find?_isSome DirEntry ((sortByName (entries.filter pat)).reverse)
    (fun e => e.edir == wantDir)).2 ⟨e, hmem, hpred⟩
  cases hf : ((sortByName (entries.filter pat)).reverse).find?
      (fun e => e.edir == wantDir) with
  | none => rw [hf] at this; cases this
  | some r => exact ⟨r, rfl⟩

/-- C8 counterexample: with directories `sdd-claude-package-sh`,
`sdd-claude-package-sh-v2` and `xyz-claude-package-sh` all present, the code
returns the exact-named `sdd-claude-package-sh`, while the claim's rule
(wildcard prefix, lexicographically last match) selects
`xyz-claude-package-sh`. -/
theorem c8_discovery_counterexample :
    find_agent_template_variant
      [⟨"sdd-claude-package-sh", true⟩, ⟨"sdd-claude-package-sh-v2", true⟩,
       ⟨"xyz-claude-package-sh", true⟩] "claude" "sh"
      = some "sdd-claude-package-sh"
    ∧ claimC8find
      [⟨"sdd-claude-package-sh", true⟩, ⟨"sdd-claude-package-sh-v2", true⟩,
       ⟨"xyz-claude-package-sh", true⟩] "claude" "sh"
      = some "xyz-claude-package-sh"
    ∧ (some "sdd-claude-package-sh" : Option String) ≠ some "xyz-claude-package-sh" :=
  ⟨by decide, by decide, by decide⟩

/-- C8 (amended): discovery considers directories named exactly
`sdd-<agent>-package-<script>` or with a version suffix
`sdd-<agent>-package-<script>-*`, and archives named exactly
`spec-kit-template-<agent>-<script>.zip` or with a suffix
`spec-kit-template-<agent>-<script>-*.zip`; the exact directory name is
preferred first, then the lexicographically last suffixed directory, then the
exact archive name, then the lexicographically last suffixed archive. -/
theorem c8_amended_discovery (entries : List DirEntry) (agent script pd zx : String)
    (hpd : pd = "sdd-" ++ agent ++ "-package-" ++ script)
    (hzx : zx = "spec-kit-template-" ++ agent ++ "-" ++ script) :
    ((∃ e ∈ entries, e.ename = pd ∧ e.edir = true) →
        find_agent_template_variant entries agent script = some pd)
    ∧ ((∀ e ∈ entries, e.ename = pd → e.edir = false) →
        ∀ e0 ∈ entries, e0.edir = true → strStartsWithL e0.ename (pd ++ "-") = true →
        ∃ r, find_agent_template_variant entries agent script = some r
          ∧ (∃ e ∈ entries, e.ename = r ∧ e.edir = true
              ∧ strStartsWithL r (pd ++ "-") = true)
          ∧ (∀ e2 ∈ entries, e2.edir = true → strStartsWithL e2.ename (pd ++ "-") = true →
              e2.ename.data ≤ r.data))
    ∧ ((∀ e ∈ entries, e.edir = true →
          e.ename ≠ pd ∧ strStartsWithL e.ename (pd ++ "-") = false) →
        (∃ e ∈ entries, e.ename = zx ++ ".zip" ∧ e.edir = false) →
        find_agent_template_variant entries agent script = some (zx ++ ".zip"))
    ∧ ((∀ e ∈ entries, e.edir = true →
          e.ename ≠ pd ∧ strStartsWithL e.ename (pd ++ "-") = false) →
        (∀ e ∈ entries, e.ename = zx ++ ".zip" → e.edir = true) →
        ∀ e0 ∈ entries, e0.edir = false →
          globStarMatch (zx ++ "-").data ".zip".data e0.ename.data = true →
        ∃ r, find_agent_template_variant entries agent script = some r
          ∧ (∃ e ∈ entries, e.ename = r ∧ e.edir = false
              ∧ globStarMatch (zx ++ "-").data ".zip".data r.data = true)
          ∧ (∀ e2 ∈ entries, e2.edir = false →
              globStarMatch (zx ++ "-").data ".zip".data e2.ename.data = true →
              e2.ename.data ≤ r.data)) := by
  subst hpd
  subst hzx
  refine ⟨?_, ?_, ?_, ?_⟩
  · rintro ⟨e, he, hname, hdir⟩
    obtain ⟨r, hr⟩ := pickLast_isSome entries
      (fun e => e.ename = "sdd-" ++ agent ++ "-package-" ++ script) true he
      (by simp [hname]) hdir
    obtain ⟨_, hpat, _, _⟩ := pickLast_max hr
    simp only [decide_eq_true_eq] at hpat
    simp only [find_agent_template_variant, hr]
    rw [hpat]
  · intro hnone e0 he0 hdir0 hstart0
    cases hs1 : pickLast entries
        (fun e => e.ename = "sdd-" ++ agent ++ "-package-" ++ script) true with
    | some r =>
      obtain ⟨hrent, hpat, hrdir, _⟩ := pickLast_max hs1
      simp only [decide_eq_true_eq] at hpat
      rw [hnone r hrent hpat] at hrdir
      cases hrdir
    | none =>
      cases hs2 : pickLast entries
          (fun e => strStartsWithL e.ename
            (("sdd-" ++ agent ++ "-package-" ++ script) ++ "-")) true with
      | none =>
        obtain ⟨r, hr⟩ := pickLast_isSome entries
          (fun e => strStartsWithL e.ename
            (("sdd-" ++ agent ++ "-package-" ++ script) ++ "-")) true he0 hstart0 hdir0
        rw [hr] at hs2
        cases hs2
      | some r =>
        obtain ⟨hrent, hpat, hrdir, hmax⟩ := pickLast_max hs2
        refine ⟨r.ename, ?_, ⟨r, hrent, rfl, hrdir, hpat⟩, ?_⟩
        · simp only [find_agent_template_variant, hs1, hs2]
        · intro e2 he2 hd2 hst2
          exact hmax e2 he2 hst2 hd2
  · rintro hnodir ⟨e, he, hname, hfile⟩
    cases hs1 : pickLast entries
        (fun e => e.ename = "sdd-" ++ agent ++ "-package-" ++ script) true with
    | some r =>
      obtain ⟨hrent, hpat, hrdir, _⟩ := pickLast_max hs1
      simp only [decide_eq_true_eq] at hpat
      exact absurd hpat (hnodir r hrent hrdir).1
    | none =>
      cases hs2 : pickLast entries
          (fun e => strStartsWithL e.ename
            (("sdd-" ++ agent ++ "-package-" ++ script) ++ "-")) true with
      | some r =>
        obtain ⟨hrent, hpat, hrdir, _⟩ := pickLast_max hs2
        rw [(hnodir r hrent hrdir).2] at hpat
        cases hpat
      | none =>
        obtain ⟨r, hr⟩ := pickLast_isSome entries
          (fun e => e.ename = ("spec-kit-template-" ++ agent ++ "-" ++ script) ++ ".zip")
          false he (by simp [hname]) hfile
        obtain ⟨_, hpat, _, _⟩ := pickLast_max hr
        simp only [decide_eq_true_eq] at hpat
        simp only [find_agent_template_variant, hs1, hs2, hr]
        rw [hpat]
  · intro hnodir hnoexact e0 he0 hfile0 hglob0
    cases hs1 : pickLast entries
        (fun e => e.ename = "sdd-" ++ agent ++ "-package-" ++ script) true with
    | some r =>
      obtain ⟨hrent, hpat, hrdir, _⟩ := pickLast_max hs1
      simp only [decide_eq_true_eq] at hpat
      exact absurd hpat (hnodir r hrent hrdir).1
    | none =>
      cases hs2 : pickLast entries
          (fun e => strStartsWithL e.ename
            (("sdd-" ++ agent ++ "-package-" ++ script) ++ "-")) true with
      | some r =>
        obtain ⟨hrent, hpat, hrdir, _⟩ := pickLast_max hs2
        rw [(hnodir r hrent hrdir).2] at hpat
        cases hpat
      | none =>
        cases hs3 : pickLast entries
            (fun e => e.ename = ("spec-kit-template-" ++ agent ++ "-" ++ script) ++ ".zip")
            false with
        | some r =>
          obtain ⟨hrent, hpat, hrdir, _⟩ := pickLast_max hs3
          simp only [decide_eq_true_eq] at hpat
          rw [hnoexact r hrent hpat] at hrdir
          cases hrdir
        | none =>
          cases hs4 : pickLast entries
              (fun e => globStarMatch
                ((("spec-kit-template-" ++ agent ++ "-" ++ script) ++ "-")).data
                ".zip".data e.ename.data) false with
          | none =>
            obtain ⟨r, hr⟩ := pickLast_isSome entries
              (fun e => globStarMatch
                ((("spec-kit-template-" ++ agent ++ "-" ++ script) ++ "-")).data
                ".zip".data e.ename.data) false he0 hglob0 hfile0
            rw [hr] at hs4
            cases hs4
          | some r =>
            obtain ⟨hrent, hpat, hrdir, hmax⟩ := pickLast_max hs4
            refine ⟨r.ename, ?_, ⟨r, hrent, rfl, hrdir, hpat⟩, ?_⟩
            · simp only [find_agent_template_variant, hs1, hs2, hs3, hs4]
            · intro e2 he2 hd2 hg2
              exact hmax e2 he2 hg2 hd2

/-- C8 amended witness: the exact-named directory is returned. -/
theorem c8_amended_discovery_witness :
    find_agent_template_variant
      [⟨"sdd-claude-package-sh", true⟩, ⟨"sdd-claude-package-sh-v2", true⟩]
      "claude" "sh" = some ("sdd-" ++ "claude" ++ "-package-" ++ "sh") :=
  (c8_amended_discovery
    [⟨"sdd-claude-package-sh", true⟩, ⟨"sdd-claude-package-sh-v2", true⟩]
    "claude" "sh" _ _ rfl rfl).1
    ⟨⟨"sdd-claude-package-sh", true⟩, by decide, by decide, rfl⟩

/-! ### Legacy relocator (C3) -/

theorem getPath_append (p q : List String) (t : FSTree) :
    getPath t (p ++ q) = (getPath t p).bind (fun s => getPath s q) := by
  induction p generalizing t with
  | nil => rw [List.nil_append, getPath_nil, Option.some_bind]
  | cons a p2 ih =>
    rw [List.cons_append, getPath_cons, getPath_cons]
    cases childOf t a with
    | none => rfl
    | some c =>
      rw [Option.some_bind, Option.some_bind]
      exact ih c

theorem getPath_setPath_divergent (pre : List String) (x y : String)
    (p q : List String) (t v : FSTree) (hxy : y ≠ x) :
    getPath (setPath t (pre ++ x :: p) v) (pre ++ y :: q) = getPath t (pre ++ y :: q) := by
  induction pre generalizing t with
  | nil =>
    rw [List.nil_append, List.nil_append]
    exact getPath_setPath_ne t p q v hxy
  | cons a pre2 ih =>
    rw [List.cons_append, List.cons_append, getPath_cons, getPath_cons,
      childOf_setPath, if_pos rfl, Option.some_bind]
    cases hc : childOf t a with
    | some c =>
      rw [Option.getD_some, Option.some_bind]
      exact ih c
    | none =>
      rw [Option.getD_none, Option.none_bind, ih (FSTree.dir [])]
      cases pre2 with
      | nil => rfl
      | cons a2 r2 => rfl

theorem getPath_removePath_divergent (pre : List String) (x y : String)
    (p q : List String) (t : FSTree) (hxy : y ≠ x) :
    getPath (removePath t (pre ++ x :: p)) (pre ++ y :: q) = getPath t (pre ++ y :: q) := by
  induction pre generalizing t with
  | nil =>
    rw [List.nil_append, List.nil_append]
    exact getPath_removePath_ne t p q hxy
  | cons a pre2 ih =>
    rw [List.cons_append, List.cons_append, getPath_cons, getPath_cons]
    have hne : (pre2 ++ x :: p) ≠ [] := by
      cases pre2 <;> simp
    cases hpre : pre2 ++ x :: p with
    | nil => exact absurd hpre hne
    | cons b rest =>
      rw [childOf_removePath_deep]
      cases hc : childOf t a with
      | none => rfl
      | some c =>
        simp only [Option.map_some, Option.some_bind]
        rw [← hpre]
        exact ih c

theorem removePath_self_none (p : List String) (t : FSTree) (hp : p ≠ []) :
    getPath (removePath t p) p = none := by
  induction p generalizing t with
  | nil => exact absurd rfl hp
  | cons a q ih =>
    cases q with
    | nil =>
      rw [getPath_single]
      exact childOf_removePath_single t a
    | cons b r =>
      rw [getPath_cons, childOf_removePath_deep]
      cases hc : childOf t a with
      | none => rfl
      | some c =>
        show ((some (removePath c (b :: r))).bind fun s => getPath s (b :: r)) = none
        rw [Option.some_bind]
        exact ih c (by simp)

theorem movePath_eq_of_some {t v : FSTree} {src : List String}
    (h : getPath t src = some v) (dst : List String) :
    movePath t src dst = setPath (removePath t src) dst v := by
  unfold movePath
  rw [h]

/-- Modelled from the spec: `get_specs_root` and `get_specify_root` live in the
missing `specify_cli.paths` module; per the spec's canonical layout (reserved
top-level `.specs` subtree; consolidated `.specs/.specify/` root named in the
source's docstrings) they resolve to `project/.specs` and
`project/.specs/.specify`.  The model uses the literal paths `[".specs"]` and
`[".specs", ".specify"]` below. -/
def specifyRootPath : List String := [".specs", ".specify"]

/-- Source: `relocate_non_agent_directories` (lines 964-973): the fixed list of
legacy top-level directory names. -/
def nonAgentDirs : List String :=
  ["plan", "spec", "notes", "scratch", "memory", "docs", "logs", "specs"]

/-- Source: the identical inner merge loops of phase 1 (lines 949-953) and
phase 3 (lines 994-998): move each child of the item at `base` to the
consolidated root unless the target already exists; the result is paired with
the number of `shutil.move` calls performed. -/
def mergeKidsAt (base : List String) (name : String) :
    FSTree → List (String × FSTree) → FSTree × Nat
  | t, [] => (t, 0)
  | t, (cn, _) :: kids =>
    if existsB t [".specs", ".specify", name, cn] then mergeKidsAt base name t kids
    else
      let t2 := movePath t (base ++ [cn]) [".specs", ".specify", name, cn]
      let r := mergeKidsAt base name t2 kids
      (r.1, r.2 + 1)

/-- Source: lines 944-958: one entry of the legacy `.specify` directory — move
it wholesale when nothing exists at the consolidated destination, merge its
children when the destination exists and it is a directory, skip it when it is
a file whose destination exists. -/
def phase1Item (t : FSTree) (name : String) (item : FSTree) : FSTree × Nat :=
  if existsB t [".specs", ".specify", name] then
    match item with
    | FSTree.dir kids => mergeKidsAt [".specify", name] name t kids
    | FSTree.file _ => (t, 0)
  else
    (movePath t [".specify", name] [".specs", ".specify", name], 1)

def phase1Items (t : FSTree) : List (String × FSTree) → FSTree × Nat
  | [] => (t, 0)
  | (name, item) :: rest =>
    let r1 := phase1Item t name item
    let r2 := phase1Items r1.1 rest
    (r2.1, r1.2 + r2.2)

/-- Source: lines 940-962: migrate the legacy top-level `.specify` directory
into `.specs/.specify`, then `rmdir` it when it ended up empty. -/
def phase1 (t : FSTree) : FSTree × Nat :=
  match getPath t [".specify"] with
  | some (FSTree.dir items) =>
    let r := phase1Items t items
    let t2 := if isEmptyDirAt r.1 [".specify"] then removePath r.1 [".specify"] else r.1
    (t2, r.2)
  | _ => (t, 0)

/-- Source: lines 975-984: move each name of the fixed legacy list wholesale
when it exists at the project root and is absent at the consolidated root. -/
def phase2Go (t : FSTree) : List String → FSTree × Nat
  | [] => (t, 0)
  | name :: rest =>
    if existsB t [name] then
      if existsB t [".specs", ".specify", name] then phase2Go t rest
      else
        let t2 := movePath t [name] [".specs", ".specify", name]
        let r := phase2Go t2 rest
        (r.1, r.2 + 1)
    else phase2Go t rest

def phase2 (t : FSTree) : FSTree × Nat := phase2Go t nonAgentDirs

/-- Source: lines 987-1006: one remaining item directly under `.specs` — the
`.specify` entry itself is skipped; with an existing destination, two
directories merge child-wise and the emptied item is removed (`item.rmdir()`,
exceptions swallowed), other kind collisions are skipped; without a
destination the item moves wholesale via `shutil.move` inside the per-item
`try`/`except Exception: continue` (line 1005).  `shutil.move` succeeds by
`os.rename` when the destination parent `.specs/.specify` is a directory; when
the parent is missing, the rename fails and the fallback is `copytree` for a
directory item (its `makedirs` creates the missing parent, so the move
succeeds) but `copy2` for a file item, which raises `FileNotFoundError`; when
the parent exists as a file both fallbacks raise.  A raised move is swallowed
by the handler, leaving the item in place and the counter untouched. -/
def phase3Item (t : FSTree) (name : String) (item : FSTree) : FSTree × Nat :=
  if name = ".specify" then (t, 0)
  else
    match getPath t [".specs", ".specify", name] with
    | some dest =>
      match item, dest with
      | FSTree.dir kids, FSTree.dir _ =>
        let r := mergeKidsAt [".specs", name] name t kids
        let t2 := if isEmptyDirAt r.1 [".specs", name] then removePath r.1 [".specs", name]
          else r.1
        (t2, r.2)
      | _, _ => (t, 0)
    | none =>
      match getPath t [".specs", ".specify"], item with
      | some (FSTree.dir _), _ =>
        (movePath t [".specs", name] [".specs", ".specify", name], 1)
      | none, FSTree.dir _ =>
        (movePath t [".specs", name] [".specs", ".specify", name], 1)
      | _, _ => (t, 0)

def phase3Items (t : FSTree) : List (String × FSTree) → FSTree × Nat
  | [] => (t, 0)
  | (name, item) :: rest =>
    let r1 := phase3Item t name item
    let r2 := phase3Items r1.1 rest
    (r2.1, r1.2 + r2.2)

def phase3 (t : FSTree) : FSTree × Nat :=
  match getPath t [".specs"] with
  | some (FSTree.dir items) => phase3Items t items
  | _ => (t, 0)

/-- Source: `relocate_non_agent_directories` (lines 935-1006): the three
phases in order; the result is the final tree together with the number of
`shutil.move` calls performed by each phase. -/
def relocate_non_agent_directories (t : FSTree) : FSTree × Nat × Nat × Nat :=
  let r1 := phase1 t
  let r2 := phase2 r1.1
  let r3 := phase3 r2.1
  (r3.1, r1.2, r2.2, r3.2)

/-- Phase-1 stability: the legacy root is gone, is a file, or is a non-empty
directory each of whose entries already has its consolidated destination, with
every nested child present there too. -/
def S1 (t : FSTree) : Prop :=
  (∀ items, getPath t [".specify"] = some (FSTree.dir items) → items ≠ []) ∧
  (∀ n, (getPath t [".specify", n]).isSome = true →
      existsB t [".specs", ".specify", n] = true ∧
      ∀ m, (getPath t [".specify", n, m]).isSome = true →
          existsB t [".specs", ".specify", n, m] = true)

/-- Phase-2 stability: each fixed legacy name is absent at the top level or
already present under the consolidated root. -/
def S2 (t : FSTree) : Prop :=
  ∀ n ∈ nonAgentDirs,
    existsB t [n] = false ∨ existsB t [".specs", ".specify", n] = true

/-- Phase-3 stability: every remaining item directly under `.specs` (other
than `.specify`) has an existing consolidated destination, and a
directory-over-directory collision is a non-empty leftover whose children all
exist at the destination. -/
def S3 (t : FSTree) : Prop :=
  ∀ items, getPath t [".specs"] = some (FSTree.dir items) →
    ∀ x ∈ items, x.1 ≠ ".specify" →
      ∃ dest, getPath t [".specs", ".specify", x.1] = some dest ∧
        (∀ kids dcs, x.2 = FSTree.dir kids → dest = FSTree.dir dcs →
          kids ≠ [] ∧ ∀ c ∈ kids, existsB t [".specs", ".specify", x.1, c.1] = true)

theorem mergeKidsAt_stable (base : List String) (name : String) (t : FSTree)
    (kids : List (String × FSTree))
    (h : ∀ c ∈ kids, existsB t [".specs", ".specify", name, c.1] = true) :
    mergeKidsAt base name t kids = (t, 0) := by
  induction kids with
  | nil => rfl
  | cons c rest ih =>
    rw [mergeKidsAt, if_pos (h c (List.mem_cons_self _ _))]
    exact ih (fun c2 hc2 => h c2 (List.mem_cons_of_mem _ hc2))

theorem getPath_two (t : FSTree) (a b : String) :
    getPath t [a, b] = (getPath t [a]).bind (fun s => getPath s [b]) := by
  rw [show [a, b] = [a] ++ [b] from rfl, getPath_append]

theorem getPath_three (t : FSTree) (a b c : String) :
    getPath t [a, b, c] = (getPath t [a, b]).bind (fun s => getPath s [c]) := by
  rw [show [a, b, c] = [a, b] ++ [c] from rfl, getPath_append]

theorem phase1Items_of_steps (items : List (String × FSTree)) (t : FSTree)
    (hstep : ∀ x ∈ items, phase1Item t x.1 x.2 = (t, 0)) :
    phase1Items t items = (t, 0) := by
  induction items with
  | nil => rfl
  | cons x rest ih =>
    rw [phase1Items, hstep x (List.mem_cons_self _ _),
      ih (fun y hy => hstep y (List.mem_cons_of_mem _ hy))]
    rfl

theorem phase3Items_of_steps (items : List (String × FSTree)) (t : FSTree)
    (hstep : ∀ x ∈ items, phase3Item t x.1 x.2 = (t, 0)) :
    phase3Items t items = (t, 0) := by
  induction items with
  | nil => rfl
  | cons x rest ih =>
    rw [phase3Items, hstep x (List.mem_cons_self _ _),
      ih (fun y hy => hstep y (List.mem_cons_of_mem _ hy))]
    rfl

theorem phase1_stable (t : FSTree) (hwf : WFt t) (h : S1 t) : phase1 t = (t, 0) := by
  unfold phase1
  cases hleg : getPath t [".specify"] with
  | none => rfl
  | some legacy =>
    cases legacy with
    | file c => rfl
    | dir items =>
      have hitems : phase1Items t items = (t, 0) := by
        have hwfl : WFt (FSTree.dir items) := WFt_getPath hwf hleg
        have hnd : (items.map Prod.fst).Nodup := WFt_childrenOf_nodup hwfl
        have hstep : ∀ x ∈ items, phase1Item t x.1 x.2 = (t, 0) := by
          intro x hx
          have hcg : childGet items x.1 = some x.2 := childGet_of_mem hnd hx
          have hpath : getPath t [".specify", x.1] = some x.2 := by
            rw [getPath_two, hleg, Option.some_bind, getPath_single]
            exact hcg
          obtain ⟨hdest, hkids⟩ := h.2 x.1 (by rw [hpath]; rfl)
          unfold phase1Item
          rw [if_pos hdest]
          cases hx2 : x.2 with
          | file c => rfl
          | dir kids =>
            refine mergeKidsAt_stable _ _ _ _ ?_
            intro c hc
            have hwfx : WFt (FSTree.dir kids) := by
              rw [← hx2]
              exact WFt_childrenOf_mem hwfl _ hx
            have hndk : (kids.map Prod.fst).Nodup := WFt_childrenOf_nodup hwfx
            refine hkids c.1 ?_
            rw [getPath_three, hpath, hx2, Option.some_bind, getPath_single]
            rw [show childOf (FSTree.dir kids) c.1 = childGet kids c.1 from rfl]
            rw [childGet_of_mem hndk hc]
            rfl
        exact phase1Items_of_steps items t hstep
      have hne : items ≠ [] := h.1 items hleg
      have hemp : isEmptyDirAt t [".specify"] = false := by
        unfold isEmptyDirAt
        rw [hleg]
        cases items with
        | nil => exact absurd rfl hne
        | cons y ys => rfl
      show ((if isEmptyDirAt (phase1Items t items).1 [".specify"] = true
          then removePath (phase1Items t items).1 [".specify"]
          else (phase1Items t items).1), (phase1Items t items).2) = (t, 0)
      rw [hitems]
      show ((if isEmptyDirAt t [".specify"] = true
          then removePath t [".specify"] else t), 0) = (t, 0)
      rw [hemp]
      rfl

theorem phase2Go_stable (names : List String) (t : FSTree)
    (h : ∀ n ∈ names, existsB t [n] = false
        ∨ existsB t [".specs", ".specify", n] = true) :
    phase2Go t names = (t, 0) := by
  induction names with
  | nil => rfl
  | cons n rest ih =>
    rw [phase2Go]
    rcases h n (List.mem_cons_self _ _) with h1 | h2
    · rw [h1]
      exact ih (fun m hm => h m (List.mem_cons_of_mem _ hm))
    · cases hx : existsB t [n] with
      | false =>
        rw [if_neg (by simp)]
        exact ih (fun m hm => h m (List.mem_cons_of_mem _ hm))
      | true =>
        rw [if_pos rfl, if_pos h2]
        exact ih (fun m hm => h m (List.mem_cons_of_mem _ hm))

theorem phase2_stable (t : FSTree) (h : S2 t) : phase2 t = (t, 0) :=
  phase2Go_stable nonAgentDirs t h

theorem phase3_stable (t : FSTree) (hwf : WFt t) (h : S3 t) : phase3 t = (t, 0) := by
  unfold phase3
  cases hs : getPath t [".specs"] with
  | none => rfl
  | some specs =>
    cases specs with
    | file c => rfl
    | dir items =>
      have hwfl : WFt (FSTree.dir items) := WFt_getPath hwf hs
      have hnd : (items.map Prod.fst).Nodup := WFt_childrenOf_nodup hwfl
      have hstep : ∀ x ∈ items, phase3Item t x.1 x.2 = (t, 0) := by
        intro x hx
        unfold phase3Item
        by_cases hname : x.1 = ".specify"
        · rw [if_pos hname]
        · rw [if_neg hname]
          obtain ⟨dest, hdest, hcoll⟩ := h items hs x hx hname
          rw [hdest]
          cases hx2 : x.2 with
          | file c =>
            cases dest <;> rfl
          | dir kids =>
            cases hd2 : dest with
            | file c => rfl
            | dir dcs =>
              obtain ⟨hne, hkids⟩ := hcoll kids dcs hx2 hd2
              have hcg : childGet items x.1 = some x.2 := childGet_of_mem hnd hx
              have hitem : getPath t [".specs", x.1] = some (FSTree.dir kids) := by
                rw [getPath_two, hs, Option.some_bind, getPath_single]
                rw [show childOf (FSTree.dir items) x.1 = childGet items x.1 from rfl]
                rw [hcg, hx2]
              have hemp : isEmptyDirAt t [".specs", x.1] = false := by
                unfold isEmptyDirAt
                rw [hitem]
                cases kids with
                | nil => exact absurd rfl hne
                | cons y ys => rfl
              show ((if isEmptyDirAt (mergeKidsAt [".specs", x.1] x.1 t kids).1
                    [".specs", x.1] = true
                  then removePath (mergeKidsAt [".specs", x.1] x.1 t kids).1 [".specs", x.1]
                  else (mergeKidsAt [".specs", x.1] x.1 t kids).1),
                 (mergeKidsAt [".specs", x.1] x.1 t kids).2) = (t, 0)
              rw [mergeKidsAt_stable _ _ _ _ hkids]
              show ((if isEmptyDirAt t [".specs", x.1] = true
                  then removePath t [".specs", x.1] else t), 0) = (t, 0)
              rw [hemp]
              rfl
      exact phase3Items_of_steps items t hstep

theorem childGet_isSome_of_mem {cs : List (String × FSTree)} {x : String × FSTree}
    (h : x ∈ cs) : (childGet cs x.1).isSome = true := by
  induction cs with
  | nil => simp at h
  | cons hd tl ih =>
    cases hd with
    | mk a w =>
      by_cases he : a = x.1
      · simp [childGet, he]
      · simp only [childGet, if_neg he]
        rcases List.mem_cons.1 h with h1 | h2
        · exact absurd (congrArg Prod.fst h1).symm he
        · exact ih h2

theorem existsB_false_iff {t : FSTree} {p : List String} :
    existsB t p = false ↔ getPath t p = none := by
  unfold existsB
  cases getPath t p <;> simp

theorem existsB_true_iff {t : FSTree} {p : List String} :
    existsB t p = true ↔ ∃ v, getPath t p = some v := by
  unfold existsB
  cases getPath t p <;> simp

/-- Monotonicity of the consolidated subtree: existing entries under
`.specs/.specify` never disappear. -/
def SMono (a b : FSTree) : Prop :=
  ∀ q, existsB a (".specs" :: ".specify" :: q) = true →
    existsB b (".specs" :: ".specify" :: q) = true

theorem SMono_refl (t : FSTree) : SMono t t := fun _ h => h

theorem SMono_trans {a b c : FSTree} (h1 : SMono a b) (h2 : SMono b c) : SMono a c :=
  fun q h => h2 q (h1 q h)

/-- The shape hypothesis for the shared merge loop: the items live directly
under the legacy root (phase 1) or directly under `.specs` (phase 3). -/
def BaseOk (sHead name : String) : Prop :=
  sHead = ".specify" ∨ (sHead = ".specs" ∧ name ≠ ".specify")

theorem remove_src_specify_frame {sHead name : String} (hb : BaseOk sHead name)
    (t : FSTree) (p q : List String) :
    getPath (removePath t (sHead :: name :: p)) (".specs" :: ".specify" :: q)
      = getPath t (".specs" :: ".specify" :: q) := by
  rcases hb with h | ⟨h, hk⟩
  · subst h
    exact getPath_removePath_divergent [] ".specify" ".specs" (name :: p)
      (".specify" :: q) t (by decide)
  · subst h
    exact getPath_removePath_divergent [".specs"] name ".specify" p q t
      (fun hh => hk hh.symm)

theorem remove_src_top_frame {sHead name : String} (t : FSTree) (p q : List String)
    (y : String) (hy : y ≠ sHead) :
    getPath (removePath t (sHead :: name :: p)) (y :: q) = getPath t (y :: q) :=
  getPath_removePath_divergent [] sHead y (name :: p) q t hy

theorem set_dst_top_frame (t v : FSTree) (p q : List String) (y : String)
    (hy : y ≠ ".specs") :
    getPath (setPath t (".specs" :: p) v) (y :: q) = getPath t (y :: q) :=
  getPath_setPath_divergent [] ".specs" y p q t v hy

theorem set_dst_specify_other_frame (t v : FSTree) (name : String) (p q : List String)
    (m : String) (hm : m ≠ name) :
    getPath (setPath t (".specs" :: ".specify" :: name :: p) v)
        (".specs" :: ".specify" :: m :: q)
      = getPath t (".specs" :: ".specify" :: m :: q) :=
  getPath_setPath_divergent [".specs", ".specify"] name m p q t v hm

theorem set_dst_specs_other_frame (t v : FSTree) (p q : List String)
    (m : String) (hm : m ≠ ".specify") :
    getPath (setPath t (".specs" :: ".specify" :: p) v) (".specs" :: m :: q)
      = getPath t (".specs" :: m :: q) :=
  getPath_setPath_divergent [".specs"] ".specify" m p q t v hm

theorem getPath_setPath_prefix2_dir (t : FSTree) (x y r0 : String)
    (rest : List String) (v : FSTree) :
    ∃ cs, getPath (setPath t (x :: y :: r0 :: rest) v) [x, y]
      = some (FSTree.dir cs) := by
  rw [getPath_cons, childOf_setPath, if_pos rfl, Option.some_bind,
    getPath_single, childOf_setPath, if_pos rfl, setPath_cons]
  exact ⟨_, rfl⟩

/-- Any move whose destination lies strictly below `.specs/.specify` leaves the
consolidated root an existing directory. -/
theorem RootDir_after_set_deep (X v : FSTree) (name : String) (rest : List String) :
    ∃ cs, getPath (setPath X (".specs" :: ".specify" :: name :: rest) v)
      [".specs", ".specify"] = some (FSTree.dir cs) :=
  getPath_setPath_prefix2_dir X ".specs" ".specify" name rest v

/-- The merge loop shared by phases 1 and 3: well-formedness is preserved, the
consolidated subtree only grows, every listed child ends up present at its
consolidated destination, the source item only loses children, siblings and
foreign top-level entries are untouched, other consolidated entries keep their
values, and the parent of the source item stays a directory. -/
theorem mergeKidsAt_spec {sHead name : String} (hb : BaseOk sHead name) :
    ∀ (kids : List (String × FSTree)) (t : FSTree), WFt t →
    (∀ c ∈ kids, existsB t [".specs", ".specify", name, c.1] = true
        ∨ (getPath t (sHead :: name :: [c.1])).isSome = true) →
    WFt (mergeKidsAt [sHead, name] name t kids).1
    ∧ SMono t (mergeKidsAt [sHead, name] name t kids).1
    ∧ (∀ c ∈ kids,
        existsB (mergeKidsAt [sHead, name] name t kids).1
          [".specs", ".specify", name, c.1] = true)
    ∧ (∀ m q, getPath (mergeKidsAt [sHead, name] name t kids).1 (sHead :: name :: m :: q)
          = getPath t (sHead :: name :: m :: q)
        ∨ getPath (mergeKidsAt [sHead, name] name t kids).1 (sHead :: name :: m :: q)
          = none)
    ∧ (∀ y q, y ≠ name → (sHead = ".specs" → y ≠ ".specify") →
        getPath (mergeKidsAt [sHead, name] name t kids).1 (sHead :: y :: q)
          = getPath t (sHead :: y :: q))
    ∧ (∀ y q, y ≠ sHead → y ≠ ".specs" →
        getPath (mergeKidsAt [sHead, name] name t kids).1 (y :: q)
          = getPath t (y :: q))
    ∧ (∀ m q, m ≠ name →
        getPath (mergeKidsAt [sHead, name] name t kids).1
            (".specs" :: ".specify" :: m :: q)
          = getPath t (".specs" :: ".specify" :: m :: q))
    ∧ (∀ cs, getPath t [sHead] = some (FSTree.dir cs) →
        ∃ cs2, getPath (mergeKidsAt [sHead, name] name t kids).1 [sHead]
          = some (FSTree.dir cs2))
    ∧ (∀ rcs, getPath t [".specs", ".specify"] = some (FSTree.dir rcs) →
        ∃ rcs2, getPath (mergeKidsAt [sHead, name] name t kids).1
          [".specs", ".specify"] = some (FSTree.dir rcs2)) := by
  intro kids
  induction kids with
  | nil =>
    intro t hwf _
    exact ⟨hwf, SMono_refl t, by simp, fun m q => Or.inl rfl,
      fun y q _ _ => rfl, fun y q _ _ => rfl, fun m q _ => rfl,
      fun cs hcs => ⟨cs, hcs⟩, fun rcs hrcs => ⟨rcs, hrcs⟩⟩
  | cons c0 kids ih =>
    intro t hwf hkids
    cases c0 with
    | mk cn cv =>
      by_cases hex : existsB t [".specs", ".specify", name, cn] = true
      · rw [show mergeKidsAt [sHead, name] name t ((cn, cv) :: kids)
            = mergeKidsAt [sHead, name] name t kids by
          rw [mergeKidsAt, if_pos hex]]
        obtain ⟨w1, w2, w3, w4, w5, w6, w7, w8, w9⟩ :=
          ih t hwf (fun c hc => hkids c (List.mem_cons_of_mem _ hc))
        refine ⟨w1, w2, ?_, w4, w5, w6, w7, w8, w9⟩
        intro c hc
        rcases List.mem_cons.1 hc with h1 | h2
        · rw [h1]
          exact w2 [name, cn] hex
        · exact w3 c h2
      · have hexF : existsB t [".specs", ".specify", name, cn] = false := by
          cases hx : existsB t [".specs", ".specify", name, cn]
          · rfl
          · exact absurd hx hex
        have hsrc : ∃ v, getPath t (sHead :: name :: [cn]) = some v := by
          rcases hkids (cn, cv) (List.mem_cons_self _ _) with h1 | h2
          · exact absurd h1 hex
          · rw [Option.isSome_iff_exists] at h2
            exact h2
        obtain ⟨v, hv⟩ := hsrc
        obtain ⟨t2, ht2⟩ : ∃ t2,
            movePath t [sHead, name, cn] [".specs", ".specify", name, cn] = t2 := ⟨_, rfl⟩
        have hmv : t2 = setPath (removePath t [sHead, name, cn])
            [".specs", ".specify", name, cn] v :=
          ht2.symm.trans (movePath_eq_of_some hv _)
        have hw2 : WFt t2 := ht2 ▸ WFt_movePath hwf _ _
        -- step frames
        have hstep_specify_other : ∀ m q, m ≠ name →
            getPath t2 (".specs" :: ".specify" :: m :: q)
              = getPath t (".specs" :: ".specify" :: m :: q) := by
          intro m q hm
          rw [hmv]
          rw [show (".specs" :: ".specify" :: m :: q)
              = (".specs" :: ".specify" :: m :: q) from rfl]
          rw [set_dst_specify_other_frame _ _ name [cn] q m hm]
          exact remove_src_specify_frame hb t [cn] (m :: q)
        have hstep_dst : getPath t2 [".specs", ".specify", name, cn] = some v := by
          rw [hmv]
          exact getPath_setPath_same _ _ v
        have hstep_smono : SMono t t2 := by
          intro q hq
          rw [existsB_true_iff] at hq
          obtain ⟨w, hw⟩ := hq
          have hrem : getPath (removePath t [sHead, name, cn])
              (".specs" :: ".specify" :: q) = some w := by
            rw [remove_src_specify_frame hb t [cn] q]
            exact hw
          have hdstnone : getPath (removePath t [sHead, name, cn])
              [".specs", ".specify", name, cn] = none := by
            rw [show ([".specs", ".specify", name, cn] : List String)
                = ".specs" :: ".specify" :: name :: [cn] from rfl]
            rw [remove_src_specify_frame hb t [cn] (name :: [cn])]
            exact existsB_false_iff.1 hexF
          rw [hmv]
          unfold existsB
          exact getPath_setPath_isSome_mono v hdstnone (by rw [hrem]; rfl)
        have hstep_sib : ∀ m q, m ≠ cn →
            getPath t2 (sHead :: name :: m :: q) = getPath t (sHead :: name :: m :: q) := by
          intro m q hm
          rw [hmv]
          have hset : getPath (setPath (removePath t [sHead, name, cn])
              [".specs", ".specify", name, cn] v) (sHead :: name :: m :: q)
              = getPath (removePath t [sHead, name, cn]) (sHead :: name :: m :: q) := by
            rcases hb with h | ⟨h, hk⟩
            · subst h
              exact set_dst_top_frame _ v _ _ _ (by decide)
            · subst h
              exact set_dst_specs_other_frame _ v _ _ name (fun hh => hk (hh ▸ rfl))
          rw [hset]
          exact getPath_removePath_divergent [sHead, name] cn m [] q t hm
        have hstep_self : getPath t2 (sHead :: name :: cn :: []) = none := by
          rw [hmv]
          have hset : getPath (setPath (removePath t [sHead, name, cn])
              [".specs", ".specify", name, cn] v) (sHead :: name :: cn :: [])
              = getPath (removePath t [sHead, name, cn]) (sHead :: name :: cn :: []) := by
            rcases hb with h | ⟨h, hk⟩
            · subst h
              exact set_dst_top_frame _ v _ _ _ (by decide)
            · subst h
              exact set_dst_specs_other_frame _ v _ _ name (fun hh => hk (hh ▸ rfl))
          rw [hset]
          exact removePath_self_none _ t (by simp)
        have hstep_other : ∀ y q, y ≠ name → (sHead = ".specs" → y ≠ ".specify") →
            getPath t2 (sHead :: y :: q) = getPath t (sHead :: y :: q) := by
          intro y q hy hy2
          rw [hmv]
          have hset : getPath (setPath (removePath t [sHead, name, cn])
              [".specs", ".specify", name, cn] v) (sHead :: y :: q)
              = getPath (removePath t [sHead, name, cn]) (sHead :: y :: q) := by
            rcases hb with h | ⟨h, hk⟩
            · subst h
              exact set_dst_top_frame _ v _ _ _ (by decide)
            · subst h
              exact set_dst_specs_other_frame _ v _ _ y (hy2 rfl)
          rw [hset]
          exact getPath_removePath_divergent [sHead] name y [cn] q t hy
        have hstep_top : ∀ y q, y ≠ sHead → y ≠ ".specs" →
            getPath t2 (y :: q) = getPath t (y :: q) := by
          intro y q hy hy2
          rw [hmv]
          rw [set_dst_top_frame _ v _ _ _ hy2]
          exact remove_src_top_frame t [cn] q y hy
        have hstep_parent : ∀ cs, getPath t [sHead] = some (FSTree.dir cs) →
            ∃ cs2, getPath t2 [sHead] = some (FSTree.dir cs2) := by
          intro cs hcs
          rw [hmv]
          have hrem : ∃ cs1, getPath (removePath t [sHead, name, cn]) [sHead]
              = some (FSTree.dir cs1) := by
            rw [getPath_single] at hcs ⊢
            rw [show ([sHead, name, cn] : List String) = sHead :: name :: [cn] from rfl]
            rw [childOf_removePath_deep]
            rw [hcs, Option.map_some']
            cases hrm : removePath (FSTree.dir cs) (name :: [cn]) with
            | file c2 =>
              exfalso
              unfold removePath at hrm
              cases hcg : childGet cs name <;> simp [hcg] at hrm
            | dir cs1 => exact ⟨cs1, rfl⟩
          obtain ⟨cs1, hcs1⟩ := hrem
          rcases hb with h | ⟨h, hk⟩
          · subst h
            rw [getPath_single] at hcs1 ⊢
            rw [show ([".specs", ".specify", name, cn] : List String)
                = ".specs" :: [".specify", name, cn] from rfl]
            rw [childOf_setPath]
            rw [if_neg (by decide)]
            exact ⟨cs1, hcs1⟩
          · subst h
            rw [getPath_single,
              show ([".specs", ".specify", name, cn] : List String)
                = ".specs" :: [".specify", name, cn] from rfl, childOf_setPath,
              if_pos rfl,
              show ([".specify", name, cn] : List String)
                = ".specify" :: [name, cn] from rfl, setPath_cons]
            exact ⟨_, rfl⟩
        have hstep_root : ∃ rcs2, getPath t2 [".specs", ".specify"]
            = some (FSTree.dir rcs2) := by
          rw [hmv]
          exact RootDir_after_set_deep _ v name [cn]
        -- recurse
        rw [show mergeKidsAt [sHead, name] name t ((cn, cv) :: kids)
            = ((mergeKidsAt [sHead, name] name t2 kids).1,
               (mergeKidsAt [sHead, name] name t2 kids).2 + 1) by
          rw [mergeKidsAt, if_neg hex]
          simp only [List.cons_append, List.nil_append, ht2]]
        have hkids2 : ∀ c ∈ kids, existsB t2 [".specs", ".specify", name, c.1] = true
            ∨ (getPath t2 (sHead :: name :: [c.1])).isSome = true := by
          intro c hc
          rcases hkids c (List.mem_cons_of_mem _ hc) with h1 | h2
          · exact Or.inl (hstep_smono [name, c.1] h1)
          · by_cases hcc : c.1 = cn
            · left
              rw [show ([".specs", ".specify", name, c.1] : List String)
                  = [".specs", ".specify", name, cn] by rw [hcc]]
              rw [existsB_true_iff]
              exact ⟨v, hstep_dst⟩
            · right
              rw [hstep_sib c.1 [] hcc]
              exact h2
        obtain ⟨w1, w2, w3, w4, w5, w6, w7, w8, w9⟩ := ih t2 hw2 hkids2
        refine ⟨w1, SMono_trans hstep_smono w2, ?_, ?_, ?_, ?_, ?_, ?_, ?_⟩
        · intro c hc
          rcases List.mem_cons.1 hc with h1 | h2
          · rw [h1]
            refine w2 [name, cn] ?_
            rw [existsB_true_iff]
            exact ⟨v, hstep_dst⟩
          · exact w3 c h2
        · intro m q
          by_cases hm : m = cn
          · subst hm
            right
            have hnone : getPath (mergeKidsAt [sHead, name] name t2 kids).1
                (sHead :: name :: [m]) = none := by
              rcases w4 m [] with hh1 | hh2
              · rw [hh1]
                exact hstep_self
              · exact hh2
            rw [show (sHead :: name :: m :: q) = (sHead :: name :: [m]) ++ q from rfl,
              getPath_append, hnone]
            rfl
          · rcases w4 m q with h1 | h2
            · left
              rw [h1, hstep_sib m q hm]
            · exact Or.inr h2
        · intro y q hy hy2
          rw [w5 y q hy hy2, hstep_other y q hy hy2]
        · intro y q hy hy2
          rw [w6 y q hy hy2, hstep_top y q hy hy2]
        · intro m q hm
          rw [w7 m q hm, hstep_specify_other m q hm]
        · intro cs hcs
          obtain ⟨cs1, hcs1⟩ := hstep_parent cs hcs
          exact w8 cs1 hcs1
        · intro rcs _
          obtain ⟨rcs1, hrcs1⟩ := hstep_root
          exact w9 rcs1 hrcs1

theorem getPath_dir_single (kids : List (String × FSTree)) (x : String) :
    getPath (FSTree.dir kids) [x] = childGet kids x := by
  rw [getPath_single]
  rfl

/-- After phase 1 handled the legacy entry `n`, either the legacy entry is gone
or its consolidated destination exists with every nested child present. -/
def itemDone (t : FSTree) (n : String) : Prop :=
  (getPath t [".specify", n]).isSome = true →
    existsB t [".specs", ".specify", n] = true ∧
    ∀ m, (getPath t [".specify", n, m]).isSome = true →
        existsB t [".specs", ".specify", n, m] = true

theorem itemDone_preserved {a b : FSTree} {n : String} (hd : itemDone a n)
    (hfr : ∀ q, getPath b (".specify" :: n :: q) = getPath a (".specify" :: n :: q))
    (hsm : SMono a b) : itemDone b n := by
  intro hsome
  rw [show ([".specify", n] : List String) = ".specify" :: n :: [] from rfl, hfr []] at hsome
  obtain ⟨h1, h2⟩ := hd hsome
  refine ⟨hsm [n] h1, ?_⟩
  intro m hm
  rw [show ([".specify", n, m] : List String) = ".specify" :: n :: [m] from rfl,
    hfr [m]] at hm
  exact hsm [n, m] (h2 m hm)

/-- Any value reachable in a file is impossible one level down. -/
theorem getPath_file_cons (c : String) (a : String) (p : List String) :
    getPath (FSTree.file c) (a :: p) = none := by
  rw [getPath_cons]
  rfl

theorem phase1Item_spec (t : FSTree) (name : String) (item : FSTree)
    (hwf : WFt t) (hsnap : getPath t [".specify", name] = some item) :
    WFt (phase1Item t name item).1
    ∧ SMono t (phase1Item t name item).1
    ∧ (∀ m q, m ≠ name →
        getPath (phase1Item t name item).1 (".specify" :: m :: q)
          = getPath t (".specify" :: m :: q))
    ∧ (∀ y q, y ≠ ".specify" → y ≠ ".specs" →
        getPath (phase1Item t name item).1 (y :: q) = getPath t (y :: q))
    ∧ (∀ cs, getPath t [".specify"] = some (FSTree.dir cs) →
        ∃ cs2, getPath (phase1Item t name item).1 [".specify"]
          = some (FSTree.dir cs2))
    ∧ (∀ rcs, getPath t [".specs", ".specify"] = some (FSTree.dir rcs) →
        ∃ rcs2, getPath (phase1Item t name item).1 [".specs", ".specify"]
          = some (FSTree.dir rcs2))
    ∧ itemDone (phase1Item t name item).1 name := by
  by_cases hex : existsB t [".specs", ".specify", name] = true
  · cases item with
    | file c =>
      rw [show phase1Item t name (FSTree.file c) = (t, 0) by
        rw [phase1Item.eq_def, if_pos hex]]
      refine ⟨hwf, SMono_refl t, fun m q _ => rfl, fun y q _ _ => rfl,
        fun cs hcs => ⟨cs, hcs⟩, fun rcs hrcs => ⟨rcs, hrcs⟩, ?_⟩
      intro _
      refine ⟨hex, ?_⟩
      intro m hm
      rw [show ([".specify", name, m] : List String)
          = [".specify", name] ++ [m] from rfl, getPath_append, hsnap,
        Option.some_bind, getPath_file_cons] at hm
      cases hm
    | dir kids =>
      rw [show phase1Item t name (FSTree.dir kids)
          = mergeKidsAt [".specify", name] name t kids by
        rw [phase1Item.eq_def, if_pos hex]]
      have hkids : ∀ c ∈ kids, existsB t [".specs", ".specify", name, c.1] = true
          ∨ (getPath t (".specify" :: name :: [c.1])).isSome = true := by
        intro c hc
        right
        rw [show (".specify" :: name :: [c.1]) = [".specify", name] ++ [c.1] from rfl,
          getPath_append, hsnap, Option.some_bind, getPath_dir_single]
        exact childGet_isSome_of_mem hc
      obtain ⟨w1, w2, w3, w4, w5, w6, w7, w8, w9⟩ :=
        mergeKidsAt_spec (Or.inl rfl) kids t hwf hkids
      refine ⟨w1, w2, ?_, ?_, w8, w9, ?_⟩
      · intro m q hm
        exact w5 m q hm (fun hc => absurd hc (by decide))
      · intro y q hy hy2
        exact w6 y q hy hy2
      · intro _
        refine ⟨w2 [name] hex, ?_⟩
        intro m hm
        rw [show ([".specify", name, m] : List String)
            = ".specify" :: name :: m :: [] from rfl] at hm
        rcases w4 m [] with h1 | h2
        · rw [h1] at hm
          rw [show (".specify" :: name :: [m]) = [".specify", name] ++ [m] from rfl,
            getPath_append, hsnap, Option.some_bind, getPath_dir_single] at hm
          rw [Option.isSome_iff_exists] at hm
          obtain ⟨v2, hv2⟩ := hm
          exact w3 (m, v2) (childGet_mem hv2)
        · rw [h2] at hm
          cases hm
  · have hexF : existsB t [".specs", ".specify", name] = false := by
      cases hx : existsB t [".specs", ".specify", name]
      · rfl
      · exact absurd hx hex
    rw [show phase1Item t name item
        = (movePath t [".specify", name] [".specs", ".specify", name], 1) by
      rw [phase1Item.eq_def, if_neg hex]]
    have hmv : movePath t [".specify", name] [".specs", ".specify", name]
        = setPath (removePath t [".specify", name]) [".specs", ".specify", name] item :=
      movePath_eq_of_some hsnap _
    have hremfr : ∀ q, getPath (removePath t [".specify", name])
        (".specs" :: q) = getPath t (".specs" :: q) := by
      intro q
      exact getPath_removePath_divergent [] ".specify" ".specs" [name] q t (by decide)
    refine ⟨WFt_movePath hwf _ _, ?_, ?_, ?_, ?_, ?_, ?_⟩
    · intro q hq
      rw [existsB_true_iff] at hq
      obtain ⟨w, hw⟩ := hq
      have hdstnone : getPath (removePath t [".specify", name])
          [".specs", ".specify", name] = none := by
        rw [show ([".specs", ".specify", name] : List String)
            = ".specs" :: [".specify", name] from rfl, hremfr]
        exact existsB_false_iff.1 hexF
      rw [hmv]
      unfold existsB
      exact getPath_setPath_isSome_mono item hdstnone
        (by rw [show (".specs" :: ".specify" :: q) = ".specs" :: (".specify" :: q)
              from rfl, hremfr, hw]; rfl)
    · intro m q hm
      rw [hmv, set_dst_top_frame _ item _ _ _ (by decide)]
      exact getPath_removePath_divergent [".specify"] name m [] q t hm
    · intro y q hy hy2
      rw [hmv, set_dst_top_frame _ item _ _ _ hy2]
      exact getPath_removePath_divergent [] ".specify" y [name] q t hy
    · intro cs hcs
      rw [hmv, show ([".specify"] : List String) = ".specify" :: [] from rfl,
        set_dst_top_frame _ item _ _ _ (by decide)]
      rw [getPath_single] at hcs ⊢
      rw [show ([".specify", name] : List String) = ".specify" :: name :: [] from rfl,
        childOf_removePath_deep, hcs, Option.map_some']
      cases hrm : removePath (FSTree.dir cs) (name :: []) with
      | file c2 =>
        exfalso
        unfold removePath at hrm
        cases hrm
      | dir cs1 => exact ⟨cs1, rfl⟩
    · intro rcs _
      rw [hmv]
      exact RootDir_after_set_deep _ item name []
    · intro hsome
      exfalso
      rw [show ([".specify", name] : List String) = ".specify" :: name :: [] from rfl,
        hmv, set_dst_top_frame _ item _ _ _ (by decide)] at hsome
      rw [show (".specify" :: name :: []) = [".specify", name] from rfl,
        removePath_self_none _ t (by simp)] at hsome
      cases hsome

theorem childGet_eq_none {cs : List (String × FSTree)} {n : String}
    (h : n ∉ cs.map Prod.fst) : childGet cs n = none := by
  induction cs with
  | nil => rfl
  | cons hd tl ih =>
    cases hd with
    | mk a v =>
      simp only [List.map_cons, List.mem_cons, not_or] at h
      simp only [childGet]
      rw [if_neg (fun hc => h.1 hc.symm)]
      exact ih h.2

theorem phase1Items_spec :
    ∀ (items : List (String × FSTree)), (items.map Prod.fst).Nodup →
    ∀ (t : FSTree), WFt t →
    (∀ x ∈ items, getPath t [".specify", x.1] = some x.2) →
    WFt (phase1Items t items).1
    ∧ SMono t (phase1Items t items).1
    ∧ (∀ m q, m ∉ items.map Prod.fst →
        getPath (phase1Items t items).1 (".specify" :: m :: q)
          = getPath t (".specify" :: m :: q))
    ∧ (∀ y q, y ≠ ".specify" → y ≠ ".specs" →
        getPath (phase1Items t items).1 (y :: q) = getPath t (y :: q))
    ∧ (∀ cs, getPath t [".specify"] = some (FSTree.dir cs) →
        ∃ cs2, getPath (phase1Items t items).1 [".specify"] = some (FSTree.dir cs2))
    ∧ (∀ rcs, getPath t [".specs", ".specify"] = some (FSTree.dir rcs) →
        ∃ rcs2, getPath (phase1Items t items).1 [".specs", ".specify"]
          = some (FSTree.dir rcs2))
    ∧ (∀ x ∈ items, itemDone (phase1Items t items).1 x.1) := by
  intro items
  induction items with
  | nil =>
    intro _ t hwf _
    exact ⟨hwf, SMono_refl t, fun m q _ => rfl, fun y q _ _ => rfl,
      fun cs hcs => ⟨cs, hcs⟩, fun rcs hrcs => ⟨rcs, hrcs⟩, by simp⟩
  | cons x rest ih =>
    intro hnd t hwf hsnap
    cases x with
    | mk name item =>
      simp only [List.map_cons, List.nodup_cons] at hnd
      obtain ⟨hnm, hnd2⟩ := hnd
      have hsnaphead : getPath t [".specify", name] = some item :=
        hsnap (name, item) (List.mem_cons_self _ _)
      obtain ⟨s1, s2, s3, s4, s5, s5r, s6⟩ := phase1Item_spec t name item hwf hsnaphead
      have hrest : ∀ x2 ∈ rest, getPath (phase1Item t name item).1 [".specify", x2.1]
          = some x2.2 := by
        intro x2 hx2
        have hxne : x2.1 ≠ name := by
          intro hc
          exact hnm (hc ▸ List.mem_map.2 ⟨x2, hx2, rfl⟩)
        rw [show ([".specify", x2.1] : List String) = ".specify" :: x2.1 :: [] from rfl,
          s3 x2.1 [] hxne]
        exact hsnap x2 (List.mem_cons_of_mem _ hx2)
      obtain ⟨w1, w2, w3, w4, w5, w5r, w6⟩ := ih hnd2 (phase1Item t name item).1 s1 hrest
      rw [show (phase1Items t ((name, item) :: rest)).1
          = (phase1Items (phase1Item t name item).1 rest).1 from rfl]
      refine ⟨w1, SMono_trans s2 w2, ?_, ?_, ?_, ?_, ?_⟩
      · intro m q hm
        simp only [List.map_cons, List.mem_cons, not_or] at hm
        rw [w3 m q hm.2, s3 m q hm.1]
      · intro y q hy hy2
        rw [w4 y q hy hy2, s4 y q hy hy2]
      · intro cs hcs
        obtain ⟨cs1, hcs1⟩ := s5 cs hcs
        exact w5 cs1 hcs1
      · intro rcs hrcs
        obtain ⟨rcs1, hrcs1⟩ := s5r rcs hrcs
        exact w5r rcs1 hrcs1
      · intro x2 hx2
        rcases List.mem_cons.1 hx2 with h1 | h2
        · rw [h1]
          refine itemDone_preserved s6 ?_ w2
          intro q
          exact w3 name q hnm
        · exact w6 x2 h2

/-- Phase 1 establishes its stability predicate while preserving
well-formedness, only growing the consolidated subtree and leaving every other
top-level entry untouched. -/
theorem phase1_establish (t : FSTree) (hwf : WFt t) :
    WFt (phase1 t).1
    ∧ SMono t (phase1 t).1
    ∧ (∀ y q, y ≠ ".specify" → y ≠ ".specs" →
        getPath (phase1 t).1 (y :: q) = getPath t (y :: q))
    ∧ (∀ rcs, getPath t [".specs", ".specify"] = some (FSTree.dir rcs) →
        ∃ rcs2, getPath (phase1 t).1 [".specs", ".specify"]
          = some (FSTree.dir rcs2))
    ∧ S1 (phase1 t).1 := by
  cases hleg : getPath t [".specify"] with
  | none =>
    rw [show phase1 t = (t, 0) by rw [phase1.eq_def, hleg]]
    refine ⟨hwf, SMono_refl t, fun y q _ _ => rfl,
      fun rcs hrcs => ⟨rcs, hrcs⟩, ?_, ?_⟩
    · intro items hitems
      rw [hleg] at hitems
      cases hitems
    · intro n hn
      rw [show ([".specify", n] : List String) = [".specify"] ++ [n] from rfl,
        getPath_append, hleg, Option.none_bind] at hn
      cases hn
  | some legacy =>
    cases legacy with
    | file c =>
      rw [show phase1 t = (t, 0) by rw [phase1.eq_def, hleg]]
      refine ⟨hwf, SMono_refl t, fun y q _ _ => rfl,
        fun rcs hrcs => ⟨rcs, hrcs⟩, ?_, ?_⟩
      · intro items hitems
        rw [hleg] at hitems
        cases hitems
      · intro n hn
        rw [show ([".specify", n] : List String) = [".specify"] ++ [n] from rfl,
          getPath_append, hleg, Option.some_bind, getPath_file_cons] at hn
        cases hn
    | dir items =>
      have hnd : (items.map Prod.fst).Nodup := by
        have := WFt_getPath hwf hleg
        cases this with
        | dir _ h1 _ => exact h1
      have hsnap : ∀ x ∈ items, getPath t [".specify", x.1] = some x.2 := by
        intro x hx
        rw [show ([".specify", x.1] : List String) = [".specify"] ++ [x.1] from rfl,
          getPath_append, hleg, Option.some_bind, getPath_dir_single]
        exact childGet_of_mem hnd hx
      obtain ⟨w1, w2, w3, w4, w5, w5r, w6⟩ := phase1Items_spec items hnd t hwf hsnap
      have hphase : phase1 t
          = (if isEmptyDirAt (phase1Items t items).1 [".specify"] then
              removePath (phase1Items t items).1 [".specify"]
            else (phase1Items t items).1, (phase1Items t items).2) := by
        rw [phase1.eq_def, hleg]
      by_cases hemp : isEmptyDirAt (phase1Items t items).1 [".specify"] = true
      · rw [show (phase1 t).1 = removePath (phase1Items t items).1 [".specify"] by
          rw [hphase]
          simp only [hemp]
          rfl]
        have hremfr : ∀ y q, y ≠ ".specify" →
            getPath (removePath (phase1Items t items).1 [".specify"]) (y :: q)
              = getPath (phase1Items t items).1 (y :: q) := by
          intro y q hy
          exact getPath_removePath_divergent [] ".specify" y [] q _ hy
        refine ⟨WFt_removePath w1 _, ?_, ?_, ?_, ?_, ?_⟩
        · intro q hq
          rw [show (".specs" :: ".specify" :: q) = ".specs" :: (".specify" :: q)
            from rfl]
          unfold existsB
          rw [hremfr ".specs" (".specify" :: q) (by decide)]
          exact w2 q hq
        · intro y q hy hy2
          rw [hremfr y q hy]
          exact w4 y q hy hy2
        · intro rcs hrcs
          rw [show ([".specs", ".specify"] : List String)
              = ".specs" :: [".specify"] from rfl,
            hremfr ".specs" [".specify"] (by decide)]
          exact w5r rcs hrcs
        · intro items2 hitems2
          rw [show ([".specify"] : List String) = ".specify" :: [] from rfl,
            removePath_self_none _ _ (by simp)] at hitems2
          cases hitems2
        · intro n hn
          rw [show ([".specify", n] : List String) = ".specify" :: [n] from rfl,
            getPath_cons, childOf_removePath_single, Option.none_bind] at hn
          cases hn
      · rw [show (phase1 t).1 = (phase1Items t items).1 by
          rw [hphase]
          simp only [hemp]
          rfl]
        refine ⟨w1, w2, w4, w5r, ?_, ?_⟩
        · intro items2 hitems2 hcontra
          rw [hcontra] at hitems2
          apply hemp
          unfold isEmptyDirAt
          rw [hitems2]
        · intro n hn
          by_cases hmem : n ∈ items.map Prod.fst
          · obtain ⟨x, hx, hxn⟩ := List.mem_map.1 hmem
            have hdone := w6 x hx
            rw [hxn] at hdone
            exact hdone hn
          · rw [show ([".specify", n] : List String) = ".specify" :: n :: [] from rfl,
              w3 n [] hmem,
              show (".specify" :: n :: []) = [".specify"] ++ [n] from rfl,
              getPath_append, hleg, Option.some_bind, getPath_dir_single,
              childGet_eq_none hmem] at hn
            cases hn

/-- Phase 2 establishes its stability predicate: afterwards each processed name
is absent at the top level or present under the consolidated root. -/
theorem phase2Go_establish :
    ∀ (names : List String) (t : FSTree), WFt t →
    (∀ n ∈ names, n ≠ ".specs" ∧ n ≠ ".specify") →
    WFt (phase2Go t names).1
    ∧ SMono t (phase2Go t names).1
    ∧ (∀ q, getPath (phase2Go t names).1 (".specify" :: q)
        = getPath t (".specify" :: q))
    ∧ (∀ m, m ≠ ".specs" → existsB t [m] = false →
        existsB (phase2Go t names).1 [m] = false)
    ∧ (∀ n ∈ names, existsB (phase2Go t names).1 [n] = false
        ∨ existsB (phase2Go t names).1 [".specs", ".specify", n] = true)
    ∧ (∀ rcs, getPath t [".specs", ".specify"] = some (FSTree.dir rcs) →
        ∃ rcs2, getPath (phase2Go t names).1 [".specs", ".specify"]
          = some (FSTree.dir rcs2)) := by
  intro names
  induction names with
  | nil =>
    intro t hwf _
    exact ⟨hwf, SMono_refl t, fun q => rfl, fun m _ h => h, by simp,
      fun rcs hrcs => ⟨rcs, hrcs⟩⟩
  | cons name rest ih =>
    intro t hwf hok
    obtain ⟨hn1, hn2⟩ := hok name (List.mem_cons_self _ _)
    have hokr : ∀ n ∈ rest, n ≠ ".specs" ∧ n ≠ ".specify" :=
      fun n hn => hok n (List.mem_cons_of_mem _ hn)
    by_cases hsrc : existsB t [name] = true
    · by_cases hdst : existsB t [".specs", ".specify", name] = true
      · rw [show phase2Go t (name :: rest) = phase2Go t rest by
          rw [phase2Go, if_pos hsrc, if_pos hdst]]
        obtain ⟨w1, w2, w3, w4, w5, w6⟩ := ih t hwf hokr
        refine ⟨w1, w2, w3, w4, ?_, w6⟩
        intro n hn
        rcases List.mem_cons.1 hn with h1 | h2
        · right
          rw [h1]
          exact w2 [name] hdst
        · exact w5 n h2
      · obtain ⟨v, hv⟩ := existsB_true_iff.1 hsrc
        have hdstF : existsB t [".specs", ".specify", name] = false := by
          cases hx : existsB t [".specs", ".specify", name]
          · rfl
          · exact absurd hx hdst
        obtain ⟨t2, ht2⟩ : ∃ t2,
            movePath t [name] [".specs", ".specify", name] = t2 := ⟨_, rfl⟩
        have hmv : t2 = setPath (removePath t [name])
            [".specs", ".specify", name] v :=
          ht2.symm.trans (movePath_eq_of_some hv _)
        have hw2 : WFt t2 := ht2 ▸ WFt_movePath hwf _ _
        have hremtop : ∀ y q, y ≠ name →
            getPath (removePath t [name]) (y :: q) = getPath t (y :: q) := by
          intro y q hy
          exact getPath_removePath_divergent [] name y [] q t hy
        have hstep_top : ∀ y q, y ≠ name → y ≠ ".specs" →
            getPath t2 (y :: q) = getPath t (y :: q) := by
          intro y q hy hy2
          rw [hmv, set_dst_top_frame _ v _ _ _ hy2]
          exact hremtop y q hy
        have hstep_dst : getPath t2 [".specs", ".specify", name] = some v := by
          rw [hmv]
          exact getPath_setPath_same _ _ v
        have hstep_smono : SMono t t2 := by
          intro q hq
          obtain ⟨w, hw⟩ := existsB_true_iff.1 hq
          have hdstnone : getPath (removePath t [name])
              [".specs", ".specify", name] = none := by
            rw [show ([".specs", ".specify", name] : List String)
                = ".specs" :: [".specify", name] from rfl,
              hremtop ".specs" _ (Ne.symm hn1)]
            exact existsB_false_iff.1 hdstF
          rw [hmv]
          unfold existsB
          exact getPath_setPath_isSome_mono v hdstnone
            (by rw [show (".specs" :: ".specify" :: q) = ".specs" :: (".specify" :: q)
                  from rfl, hremtop ".specs" _ (Ne.symm hn1), hw]; rfl)
        have hstep_specify : ∀ q, getPath t2 (".specify" :: q)
            = getPath t (".specify" :: q) := by
          intro q
          exact hstep_top ".specify" q (Ne.symm hn2) (by decide)
        have hstep_self : getPath t2 (name :: []) = none := by
          rw [hmv]
          have hset : getPath (setPath (removePath t [name])
              [".specs", ".specify", name] v) (name :: [])
              = getPath (removePath t [name]) (name :: []) :=
            set_dst_top_frame _ v _ _ _ hn1
          rw [hset, show (name :: []) = [name] from rfl]
          exact removePath_self_none _ t (by simp)
        have hstep_root : ∃ rcs2, getPath t2 [".specs", ".specify"]
            = some (FSTree.dir rcs2) := by
          rw [hmv]
          exact RootDir_after_set_deep _ v name []
        rw [show phase2Go t (name :: rest)
            = ((phase2Go t2 rest).1, (phase2Go t2 rest).2 + 1) by
          rw [phase2Go, if_pos hsrc, if_neg hdst]
          simp only [ht2]]
        obtain ⟨w1, w2, w3, w4, w5, w6⟩ := ih t2 hw2 hokr
        refine ⟨w1, SMono_trans hstep_smono w2, ?_, ?_, ?_, ?_⟩
        · intro q
          rw [w3 q, hstep_specify q]
        · intro m hm hmF
          apply w4 m hm
          by_cases hmn : m = name
          · subst hmn
            rw [existsB_false_iff, show ([m] : List String) = m :: [] from rfl]
            exact hstep_self
          · rw [existsB_false_iff, show ([m] : List String) = m :: [] from rfl,
              hstep_top m [] hmn hm]
            exact existsB_false_iff.1 hmF
        · intro n hn
          rcases List.mem_cons.1 hn with h1 | h2
          · right
            subst h1
            refine w2 [n] ?_
            rw [existsB_true_iff]
            exact ⟨v, hstep_dst⟩
          · exact w5 n h2
        · intro rcs _
          obtain ⟨rcs1, hrcs1⟩ := hstep_root
          exact w6 rcs1 hrcs1
    · rw [show phase2Go t (name :: rest) = phase2Go t rest by
        rw [phase2Go, if_neg hsrc]]
      obtain ⟨w1, w2, w3, w4, w5, w6⟩ := ih t hwf hokr
      refine ⟨w1, w2, w3, w4, ?_, w6⟩
      intro n hn
      rcases List.mem_cons.1 hn with h1 | h2
      · left
        subst h1
        apply w4 n hn1
        cases hx : existsB t [n]
        · rfl
        · exact absurd hx hsrc
      · exact w5 n h2

theorem phase2_establish (t : FSTree) (hwf : WFt t) :
    WFt (phase2 t).1
    ∧ SMono t (phase2 t).1
    ∧ (∀ q, getPath (phase2 t).1 (".specify" :: q) = getPath t (".specify" :: q))
    ∧ (∀ rcs, getPath t [".specs", ".specify"] = some (FSTree.dir rcs) →
        ∃ rcs2, getPath (phase2 t).1 [".specs", ".specify"]
          = some (FSTree.dir rcs2))
    ∧ S2 (phase2 t).1 := by
  obtain ⟨w1, w2, w3, _, w5, w6⟩ := phase2Go_establish nonAgentDirs t hwf (by decide)
  exact ⟨w1, w2, w3, w6, w5⟩

/-- After phase 3 handled the `.specs` entry `n`, either the entry is gone or
its consolidated destination exists; when both are directories the entry is
non-empty and each of its children is present at the destination. -/
def itemDone3 (t : FSTree) (n : String) : Prop :=
  n ≠ ".specify" →
  ∀ item2, getPath t [".specs", n] = some item2 →
    ∃ dest, getPath t [".specs", ".specify", n] = some dest ∧
      (∀ kids dcs, item2 = FSTree.dir kids → dest = FSTree.dir dcs →
        kids ≠ [] ∧ ∀ c ∈ kids, existsB t [".specs", ".specify", n, c.1] = true)

theorem itemDone3_preserved {a b : FSTree} {n : String} (hd : itemDone3 a n)
    (hfr : ∀ q, getPath b (".specs" :: n :: q) = getPath a (".specs" :: n :: q))
    (hfr2 : ∀ q, getPath b (".specs" :: ".specify" :: n :: q)
      = getPath a (".specs" :: ".specify" :: n :: q)) : itemDone3 b n := by
  intro hne item2 hitem2
  rw [show ([".specs", n] : List String) = ".specs" :: n :: [] from rfl, hfr []] at hitem2
  obtain ⟨dest, hdest, hbody⟩ := hd hne item2 hitem2
  refine ⟨dest, ?_, ?_⟩
  · rw [show ([".specs", ".specify", n] : List String)
      = ".specs" :: ".specify" :: n :: [] from rfl, hfr2 []]
    exact hdest
  · intro kids dcs hk hdc
    obtain ⟨h1, h2⟩ := hbody kids dcs hk hdc
    refine ⟨h1, ?_⟩
    intro c hc
    rw [existsB_true_iff, show ([".specs", ".specify", n, c.1] : List String)
      = ".specs" :: ".specify" :: n :: [c.1] from rfl, hfr2 [c.1]]
    exact existsB_true_iff.1 (h2 c hc)

theorem set_whole_specs_other (X v : FSTree) (name m : String) (q : List String)
    (hm : m ≠ ".specify") :
    getPath (setPath X [".specs", ".specify", name] v) (".specs" :: m :: q)
      = getPath X (".specs" :: m :: q) :=
  getPath_setPath_divergent [".specs"] ".specify" m [name] q X v hm

theorem set_whole_sub_other (X v : FSTree) (name m : String) (q : List String)
    (hm : m ≠ name) :
    getPath (setPath X [".specs", ".specify", name] v)
        (".specs" :: ".specify" :: m :: q)
      = getPath X (".specs" :: ".specify" :: m :: q) :=
  getPath_setPath_divergent [".specs", ".specify"] name m [] q X v hm

theorem remove_specs_item_top_frame (X : FSTree) (name y : String) (q : List String)
    (hy : y ≠ ".specs") :
    getPath (removePath X [".specs", name]) (y :: q) = getPath X (y :: q) :=
  getPath_removePath_divergent [] ".specs" y [name] q X hy

theorem phase3Item_spec (t : FSTree) (name : String) (item : FSTree)
    {rcs : List (String × FSTree)}
    (hwf : WFt t) (hsnap : getPath t [".specs", name] = some item)
    (hroot : getPath t [".specs", ".specify"] = some (FSTree.dir rcs)) :
    WFt (phase3Item t name item).1
    ∧ SMono t (phase3Item t name item).1
    ∧ (∀ m q, m ≠ name → m ≠ ".specify" →
        getPath (phase3Item t name item).1 (".specs" :: m :: q)
          = getPath t (".specs" :: m :: q))
    ∧ (∀ y q, y ≠ ".specs" →
        getPath (phase3Item t name item).1 (y :: q) = getPath t (y :: q))
    ∧ (∀ m q, m ≠ name →
        getPath (phase3Item t name item).1 (".specs" :: ".specify" :: m :: q)
          = getPath t (".specs" :: ".specify" :: m :: q))
    ∧ (∃ rcs2, getPath (phase3Item t name item).1 [".specs", ".specify"]
        = some (FSTree.dir rcs2))
    ∧ itemDone3 (phase3Item t name item).1 name := by
  by_cases hne : name = ".specify"
  · rw [show phase3Item t name item = (t, 0) by rw [phase3Item.eq_def, if_pos hne]]
    exact ⟨hwf, SMono_refl t, fun m q _ _ => rfl, fun y q _ => rfl, fun m q _ => rfl,
      ⟨rcs, hroot⟩, fun hcon => absurd hne hcon⟩
  · cases hdest : getPath t [".specs", ".specify", name] with
    | none =>
      obtain ⟨t2, ht2⟩ : ∃ t2,
          movePath t [".specs", name] [".specs", ".specify", name] = t2 := ⟨_, rfl⟩
      have hmv : t2 = setPath (removePath t [".specs", name])
          [".specs", ".specify", name] item :=
        ht2.symm.trans (movePath_eq_of_some hsnap _)
      rw [show phase3Item t name item = (t2, 1) by
        rw [phase3Item.eq_def, if_neg hne, hdest, hroot, ht2]]
      have hremfr : ∀ m q, m ≠ name →
          getPath (removePath t [".specs", name]) (".specs" :: m :: q)
            = getPath t (".specs" :: m :: q) := by
        intro m q hm
        exact getPath_removePath_divergent [".specs"] name m [] q t hm
      have hremtop : ∀ y q, y ≠ ".specs" →
          getPath (removePath t [".specs", name]) (y :: q) = getPath t (y :: q) := by
        intro y q hy
        exact getPath_removePath_divergent [] ".specs" y [name] q t hy
      refine ⟨ht2 ▸ WFt_movePath hwf _ _, ?_, ?_, ?_, ?_, ?_, ?_⟩
      · intro q hq
        obtain ⟨w, hw⟩ := existsB_true_iff.1 hq
        have hdstnone : getPath (removePath t [".specs", name])
            [".specs", ".specify", name] = none := by
          rw [show ([".specs", ".specify", name] : List String)
              = ".specs" :: ".specify" :: [name] from rfl,
            hremfr ".specify" [name] (fun hc => hne hc.symm)]
          exact hdest
        rw [hmv]
        unfold existsB
        exact getPath_setPath_isSome_mono item hdstnone
          (by rw [show (".specs" :: ".specify" :: q) = ".specs" :: ".specify" :: q
                from rfl, hremfr ".specify" q (fun hc => hne hc.symm), hw]; rfl)
      · intro m q hm hm2
        rw [hmv, set_whole_specs_other _ item name m q hm2]
        exact hremfr m q hm
      · intro y q hy
        rw [hmv, set_dst_top_frame _ item _ _ _ hy]
        exact hremtop y q hy
      · intro m q hm
        rw [hmv, set_whole_sub_other _ item name m q hm]
        exact getPath_removePath_divergent [".specs"] name ".specify" [] (m :: q) t
          (fun hc => hne hc.symm)
      · rw [hmv]
        exact RootDir_after_set_deep _ item name []
      · intro hcon item2 hitem2
        exfalso
        rw [show ([".specs", name] : List String) = ".specs" :: name :: [] from rfl,
          hmv, set_whole_specs_other _ item name name [] (fun hc => hne hc)] at hitem2
        rw [show (".specs" :: name :: []) = [".specs", name] from rfl,
          removePath_self_none _ t (by simp)] at hitem2
        cases hitem2
    | some dest =>
      cases item with
      | file c =>
        rw [show phase3Item t name (FSTree.file c) = (t, 0) by
          rw [phase3Item.eq_def, if_neg hne, hdest]]
        refine ⟨hwf, SMono_refl t, fun m q _ _ => rfl, fun y q _ => rfl,
          fun m q _ => rfl, ⟨rcs, hroot⟩, ?_⟩
        intro _ item2 hitem2
        rw [hsnap] at hitem2
        cases hitem2
        exact ⟨dest, hdest, fun kids dcs hk _ => by cases hk⟩
      | dir kids =>
        cases dest with
        | file dc =>
          rw [show phase3Item t name (FSTree.dir kids) = (t, 0) by
            rw [phase3Item.eq_def, if_neg hne, hdest]]
          refine ⟨hwf, SMono_refl t, fun m q _ _ => rfl, fun y q _ => rfl,
            fun m q _ => rfl, ⟨rcs, hroot⟩, ?_⟩
          intro _ item2 hitem2
          rw [hsnap] at hitem2
          cases hitem2
          exact ⟨FSTree.file dc, hdest, fun kids2 dcs hk hd => by cases hd⟩
        | dir dcs =>
          have hkids : ∀ c ∈ kids, existsB t [".specs", ".specify", name, c.1] = true
              ∨ (getPath t (".specs" :: name :: [c.1])).isSome = true := by
            intro c hc
            right
            rw [show (".specs" :: name :: [c.1]) = [".specs", name] ++ [c.1] from rfl,
              getPath_append, hsnap, Option.some_bind, getPath_dir_single]
            exact childGet_isSome_of_mem hc
          obtain ⟨w1, w2, w3, w4, w5, w6, w7, w8, w9⟩ :=
            mergeKidsAt_spec (Or.inr ⟨rfl, hne⟩) kids t hwf hkids
          have hphase : phase3Item t name (FSTree.dir kids)
              = (if isEmptyDirAt (mergeKidsAt [".specs", name] name t kids).1
                    [".specs", name] = true then
                  removePath (mergeKidsAt [".specs", name] name t kids).1
                    [".specs", name]
                else (mergeKidsAt [".specs", name] name t kids).1,
                (mergeKidsAt [".specs", name] name t kids).2) := by
            rw [phase3Item.eq_def, if_neg hne, hdest]
          by_cases hemp : isEmptyDirAt (mergeKidsAt [".specs", name] name t kids).1
              [".specs", name] = true
          · rw [show (phase3Item t name (FSTree.dir kids)).1
                = removePath (mergeKidsAt [".specs", name] name t kids).1
                    [".specs", name] by
              rw [hphase]
              simp only [hemp]
              rfl]
            have hremfr2 : ∀ m q, m ≠ name →
                getPath (removePath (mergeKidsAt [".specs", name] name t kids).1
                    [".specs", name]) (".specs" :: m :: q)
                  = getPath (mergeKidsAt [".specs", name] name t kids).1
                    (".specs" :: m :: q) := by
              intro m q hm
              exact getPath_removePath_divergent [".specs"] name m [] q _ hm
            refine ⟨WFt_removePath w1 _, ?_, ?_, ?_, ?_, ?_, ?_⟩
            · intro q hq
              unfold existsB
              rw [show (".specs" :: ".specify" :: q) = ".specs" :: ".specify" :: q
                from rfl, hremfr2 ".specify" q (fun hc => hne hc.symm)]
              exact w2 q hq
            · intro m q hm hm2
              rw [hremfr2 m q hm]
              exact w5 m q hm (fun _ => hm2)
            · intro y q hy
              rw [remove_specs_item_top_frame _ name y q hy]
              exact w6 y q hy hy
            · intro m q hm
              rw [show (".specs" :: ".specify" :: m :: q)
                  = ".specs" :: ".specify" :: m :: q from rfl,
                hremfr2 ".specify" (m :: q) (fun hc => hne hc.symm)]
              exact w7 m q hm
            · rw [show ([".specs", ".specify"] : List String)
                  = ".specs" :: ".specify" :: [] from rfl,
                hremfr2 ".specify" [] (fun hc => hne hc.symm)]
              exact w9 rcs hroot
            · intro _ item2 hitem2
              exfalso
              rw [show ([".specs", name] : List String) = ".specs" :: name :: []
                  from rfl] at hitem2
              rw [show (".specs" :: name :: []) = [".specs", name] from rfl,
                removePath_self_none _ _ (by simp)] at hitem2
              cases hitem2
          · rw [show (phase3Item t name (FSTree.dir kids)).1
                = (mergeKidsAt [".specs", name] name t kids).1 by
              rw [hphase]
              simp only [hemp]
              rfl]
            refine ⟨w1, w2, ?_, ?_, w7, w9 rcs hroot, ?_⟩
            · intro m q hm hm2
              exact w5 m q hm (fun _ => hm2)
            · intro y q hy
              exact w6 y q hy hy
            · intro _ item2 hitem2
              have hdest2 : ∃ dest2,
                  getPath (mergeKidsAt [".specs", name] name t kids).1
                    [".specs", ".specify", name] = some dest2 := by
                rw [← existsB_true_iff]
                refine w2 [name] ?_
                rw [existsB_true_iff]
                exact ⟨FSTree.dir dcs, hdest⟩
              obtain ⟨dest2, hdest2⟩ := hdest2
              refine ⟨dest2, hdest2, ?_⟩
              intro kids2 dcs2 hk _
              subst hk
              constructor
              · intro hk0
                apply hemp
                unfold isEmptyDirAt
                rw [hitem2, hk0]
              · intro c hc
                have hc2 : (getPath (mergeKidsAt [".specs", name] name t kids).1
                    (".specs" :: name :: c.1 :: [])).isSome = true := by
                  rw [show (".specs" :: name :: c.1 :: [])
                      = [".specs", name] ++ [c.1] from rfl, getPath_append, hitem2,
                    Option.some_bind, getPath_dir_single]
                  exact childGet_isSome_of_mem hc
                rcases w4 c.1 [] with h1 | h2
                · rw [h1] at hc2
                  rw [show (".specs" :: name :: c.1 :: [])
                      = [".specs", name] ++ [c.1] from rfl, getPath_append, hsnap,
                    Option.some_bind, getPath_dir_single] at hc2
                  obtain ⟨v2, hv2⟩ := Option.isSome_iff_exists.1 hc2
                  exact w3 (c.1, v2) (childGet_mem hv2)
                · rw [h2] at hc2
                  cases hc2

theorem phase3Items_spec :
    ∀ (items : List (String × FSTree)), (items.map Prod.fst).Nodup →
    ∀ (t : FSTree), WFt t →
    (∀ x ∈ items, x.1 ≠ ".specify" → getPath t [".specs", x.1] = some x.2) →
    (∃ rcs, getPath t [".specs", ".specify"] = some (FSTree.dir rcs)) →
    WFt (phase3Items t items).1
    ∧ SMono t (phase3Items t items).1
    ∧ (∀ m q, m ∉ items.map Prod.fst → m ≠ ".specify" →
        getPath (phase3Items t items).1 (".specs" :: m :: q)
          = getPath t (".specs" :: m :: q))
    ∧ (∀ y q, y ≠ ".specs" →
        getPath (phase3Items t items).1 (y :: q) = getPath t (y :: q))
    ∧ (∀ m q, m ∉ items.map Prod.fst →
        getPath (phase3Items t items).1 (".specs" :: ".specify" :: m :: q)
          = getPath t (".specs" :: ".specify" :: m :: q))
    ∧ (∀ x ∈ items, itemDone3 (phase3Items t items).1 x.1) := by
  intro items
  induction items with
  | nil =>
    intro _ t hwf _ _
    exact ⟨hwf, SMono_refl t, fun m q _ _ => rfl, fun y q _ => rfl,
      fun m q _ => rfl, by simp⟩
  | cons x rest ih =>
    intro hnd t hwf hsnap hroot
    cases x with
    | mk name item =>
      simp only [List.map_cons, List.nodup_cons] at hnd
      obtain ⟨hnm, hnd2⟩ := hnd
      by_cases hne : name = ".specify"
      · rw [show (phase3Items t ((name, item) :: rest)).1
            = (phase3Items (phase3Item t name item).1 rest).1 from rfl,
          show phase3Item t name item = (t, 0) by
            rw [phase3Item.eq_def, if_pos hne]]
        have hrest : ∀ x2 ∈ rest, x2.1 ≠ ".specify" →
            getPath t [".specs", x2.1] = some x2.2 :=
          fun x2 hx2 h2 => hsnap x2 (List.mem_cons_of_mem _ hx2) h2
        obtain ⟨w1, w2, w3, w4, w5, w6⟩ := ih hnd2 t hwf hrest hroot
        refine ⟨w1, w2, ?_, w4, ?_, ?_⟩
        · intro m q hm hm2
          simp only [List.map_cons, List.mem_cons, not_or] at hm
          exact w3 m q hm.2 hm2
        · intro m q hm
          simp only [List.map_cons, List.mem_cons, not_or] at hm
          exact w5 m q hm.2
        · intro x2 hx2
          rcases List.mem_cons.1 hx2 with h1 | h2
          · rw [h1]
            intro hcon
            exact absurd hne hcon
          · exact w6 x2 h2
      · have hsnaphead : getPath t [".specs", name] = some item :=
          hsnap (name, item) (List.mem_cons_self _ _) hne
        obtain ⟨rcs, hr⟩ := hroot
        obtain ⟨s1, s2, s3, s4, s5, s6r, s6⟩ :=
          phase3Item_spec t name item hwf hsnaphead hr
        have hrest : ∀ x2 ∈ rest, x2.1 ≠ ".specify" →
            getPath (phase3Item t name item).1 [".specs", x2.1] = some x2.2 := by
          intro x2 hx2 h2
          have hxne : x2.1 ≠ name := by
            intro hc
            exact hnm (hc ▸ List.mem_map.2 ⟨x2, hx2, rfl⟩)
          rw [show ([".specs", x2.1] : List String) = ".specs" :: x2.1 :: [] from rfl,
            s3 x2.1 [] hxne h2]
          exact hsnap x2 (List.mem_cons_of_mem _ hx2) h2
        obtain ⟨w1, w2, w3, w4, w5, w6⟩ :=
          ih hnd2 (phase3Item t name item).1 s1 hrest s6r
        rw [show (phase3Items t ((name, item) :: rest)).1
            = (phase3Items (phase3Item t name item).1 rest).1 from rfl]
        refine ⟨w1, SMono_trans s2 w2, ?_, ?_, ?_, ?_⟩
        · intro m q hm hm2
          simp only [List.map_cons, List.mem_cons, not_or] at hm
          rw [w3 m q hm.2 hm2, s3 m q hm.1 hm2]
        · intro y q hy
          rw [w4 y q hy, s4 y q hy]
        · intro m q hm
          simp only [List.map_cons, List.mem_cons, not_or] at hm
          rw [w5 m q hm.2, s5 m q hm.1]
        · intro x2 hx2
          rcases List.mem_cons.1 hx2 with h1 | h2
          · rw [h1]
            refine itemDone3_preserved s6 ?_ ?_
            · intro q
              exact w3 name q hnm hne
            · intro q
              exact w5 name q hnm
          · exact w6 x2 h2

/-- Phase 3 establishes its stability predicate while preserving
well-formedness, only growing the consolidated subtree and leaving every
top-level entry other than `.specs` untouched. -/
theorem phase3_establish (t : FSTree) (hwf : WFt t)
    (hroot : ∃ rcs, getPath t [".specs", ".specify"] = some (FSTree.dir rcs)) :
    WFt (phase3 t).1
    ∧ SMono t (phase3 t).1
    ∧ (∀ y q, y ≠ ".specs" → getPath (phase3 t).1 (y :: q) = getPath t (y :: q))
    ∧ S3 (phase3 t).1 := by
  cases hspecs : getPath t [".specs"] with
  | none =>
    rw [show phase3 t = (t, 0) by rw [phase3.eq_def, hspecs]]
    refine ⟨hwf, SMono_refl t, fun y q _ => rfl, ?_⟩
    intro items hitems
    rw [hspecs] at hitems
    cases hitems
  | some root =>
    cases root with
    | file c =>
      rw [show phase3 t = (t, 0) by rw [phase3.eq_def, hspecs]]
      refine ⟨hwf, SMono_refl t, fun y q _ => rfl, ?_⟩
      intro items hitems
      rw [hspecs] at hitems
      cases hitems
    | dir items =>
      have hnd : (items.map Prod.fst).Nodup := by
        have := WFt_getPath hwf hspecs
        cases this with
        | dir _ h1 _ => exact h1
      have hsnap : ∀ x ∈ items, x.1 ≠ ".specify" →
          getPath t [".specs", x.1] = some x.2 := by
        intro x hx _
        rw [show ([".specs", x.1] : List String) = [".specs"] ++ [x.1] from rfl,
          getPath_append, hspecs, Option.some_bind, getPath_dir_single]
        exact childGet_of_mem hnd hx
      obtain ⟨w1, w2, w3, w4, w5, w6⟩ := phase3Items_spec items hnd t hwf hsnap hroot
      rw [show phase3 t = phase3Items t items by rw [phase3.eq_def, hspecs]]
      refine ⟨w1, w2, w4, ?_⟩
      intro items2 hitems2 x2 hx2 hne2
      have hnd2 : (items2.map Prod.fst).Nodup := by
        have := WFt_getPath w1 hitems2
        cases this with
        | dir _ h1 _ => exact h1
      have hlink : getPath (phase3Items t items).1 [".specs", x2.1] = some x2.2 := by
        rw [show ([".specs", x2.1] : List String) = [".specs"] ++ [x2.1] from rfl,
          getPath_append, hitems2, Option.some_bind, getPath_dir_single]
        exact childGet_of_mem hnd2 hx2
      by_cases hmem : x2.1 ∈ items.map Prod.fst
      · obtain ⟨x, hx, hxx⟩ := List.mem_map.1 hmem
        have hdone := w6 x hx
        rw [hxx] at hdone
        exact hdone hne2 x2.2 hlink
      · exfalso
        rw [show ([".specs", x2.1] : List String) = ".specs" :: x2.1 :: [] from rfl,
          w3 x2.1 [] hmem hne2,
          show (".specs" :: x2.1 :: []) = [".specs"] ++ [x2.1] from rfl,
          getPath_append, hspecs, Option.some_bind, getPath_dir_single,
          childGet_eq_none hmem] at hlink
        cases hlink

theorem S1_preserved {a b : FSTree} (h : S1 a)
    (hfr : ∀ q, getPath b (".specify" :: q) = getPath a (".specify" :: q))
    (hsm : SMono a b) : S1 b := by
  obtain ⟨h1, h2⟩ := h
  constructor
  · intro items hitems
    apply h1 items
    rw [show ([".specify"] : List String) = ".specify" :: [] from rfl, ← hfr []]
    exact hitems
  · intro n hn
    rw [show ([".specify", n] : List String) = ".specify" :: [n] from rfl,
      hfr [n]] at hn
    obtain ⟨g1, g2⟩ := h2 n hn
    refine ⟨hsm [n] g1, ?_⟩
    intro m hm
    rw [show ([".specify", n, m] : List String) = ".specify" :: [n, m] from rfl,
      hfr [n, m]] at hm
    exact hsm [n, m] (g2 m hm)

theorem S2_preserved {a b : FSTree} (h : S2 a)
    (hfr : ∀ n ∈ nonAgentDirs, getPath b [n] = getPath a [n])
    (hsm : SMono a b) : S2 b := by
  intro n hn
  rcases h n hn with h1 | h2
  · left
    rw [existsB_false_iff, hfr n hn]
    exact existsB_false_iff.1 h1
  · right
    exact hsm [n] h2

/-- Every fixed legacy name differs from the two reserved names. -/
theorem nonAgentDirs_ok : ∀ n ∈ nonAgentDirs, n ≠ ".specs" ∧ n ≠ ".specify" := by
  decide

theorem relocate_eq_of_stable {u : FSTree} (h1 : phase1 u = (u, 0))
    (h2 : phase2 u = (u, 0)) (h3 : phase3 u = (u, 0)) :
    relocate_non_agent_directories u = (u, 0, 0, 0) := by
  simp only [relocate_non_agent_directories, h1, h2, h3]

/-- A sample project tree: a legacy `.specify` with a nested scripts directory,
a legacy `memory` directory, an empty consolidated root and an unrelated
source directory. -/
def c3Tree : FSTree :=
  FSTree.dir
    [(".specify", FSTree.dir [("scripts", FSTree.dir [("a.sh", FSTree.file "x")])]),
     ("memory", FSTree.dir [("m.md", FSTree.file "y")]),
     (".specs", FSTree.dir [(".specify", FSTree.dir [])]),
     ("src", FSTree.dir [("main.py", FSTree.file "z")])]

theorem WFt_nil : WFt (FSTree.dir []) :=
  WFt.dir [] (by simp) (by simp)

theorem WFt_singleton (n : String) (c : FSTree) (h : WFt c) :
    WFt (FSTree.dir [(n, c)]) := by
  refine WFt.dir _ (by simp) ?_
  intro x hx
  rcases List.mem_cons.1 hx with h1 | h1
  · rw [h1]
    exact h
  · simp at h1

theorem WFt_c3Tree : WFt c3Tree := by
  have h1 : WFt (FSTree.dir [("scripts", FSTree.dir [("a.sh", FSTree.file "x")])]) :=
    WFt_singleton _ _ (WFt_singleton _ _ (WFt.file _))
  have h2 : WFt (FSTree.dir [("m.md", FSTree.file "y")]) :=
    WFt_singleton _ _ (WFt.file _)
  have h3 : WFt (FSTree.dir [(".specify", FSTree.dir [])]) :=
    WFt_singleton _ _ WFt_nil
  have h4 : WFt (FSTree.dir [("main.py", FSTree.file "z")]) :=
    WFt_singleton _ _ (WFt.file _)
  refine WFt.dir _ (by decide) ?_
  intro x hx
  simp only [List.mem_cons, List.not_mem_nil, or_false] at hx
  rcases hx with h | h | h | h <;> subst h
  · exact h1
  · exact h2
  · exact h3
  · exact h4

/-- A `.specs` holding a plain file followed by a directory, with no
consolidated `.specs/.specify` root yet. -/
def c3CounterTree : FSTree :=
  FSTree.dir
    [(".specs", FSTree.dir
      [("a.txt", FSTree.file "x"),
       ("zzz", FSTree.dir [("k.md", FSTree.file "y")])])]

theorem WFt_c3CounterTree : WFt c3CounterTree := by
  have h1 : WFt (FSTree.dir
      [("a.txt", FSTree.file "x"),
       ("zzz", FSTree.dir [("k.md", FSTree.file "y")])]) := by
    refine WFt.dir _ (by decide) ?_
    intro x hx
    simp only [List.mem_cons, List.not_mem_nil, or_false] at hx
    rcases hx with h | h <;> subst h
    · exact WFt.file _
    · exact WFt_singleton _ _ (WFt.file _)
  refine WFt.dir _ (by decide) ?_
  intro x hx
  simp only [List.mem_cons, List.not_mem_nil, or_false] at hx
  subst hx
  exact h1

/-- C3 counterexample: on a well-formed tree whose `.specs` holds the file
`a.txt` followed by the directory `zzz`, with `.specs/.specify` missing, the
first invocation leaves `a.txt` in place (its `shutil.move` into the missing
consolidated root raises and the per-item handler swallows the error) while
`zzz` creates `.specs/.specify` via the `copytree` fallback; the second
invocation then really moves `a.txt`: its consolidation phase performs one
move, not zero. -/
theorem c3_relocate_counterexample :
    WFt c3CounterTree ∧
    (relocate_non_agent_directories
        (relocate_non_agent_directories c3CounterTree).1).2.2.2 = 1 :=
  ⟨WFt_c3CounterTree, rfl⟩

/-- C3 (amended): on a well-formed project tree whose consolidated root
`.specs/.specify` already exists as a directory, running
`relocate_non_agent_directories` twice performs no file moves on the second
run: the second invocation moves zero items in each of its three phases and
leaves the tree unchanged.  Without that proviso a file directly under
`.specs` can be skipped by the first run (its wholesale `shutil.move` into the
missing consolidated root raises and the per-item handler leaves it) and
moved by the second run once a later directory item has created the root. -/
theorem c3_amended_relocate_idempotent (t : FSTree) (hwf : WFt t)
    (hdir : isDirAtB t [".specs", ".specify"] = true) :
    relocate_non_agent_directories (relocate_non_agent_directories t).1
      = ((relocate_non_agent_directories t).1, 0, 0, 0) := by
  have hr0 : ∃ rcs, getPath t [".specs", ".specify"] = some (FSTree.dir rcs) := by
    unfold isDirAtB at hdir
    cases hg : getPath t [".specs", ".specify"] with
    | none =>
      rw [hg] at hdir
      cases hdir
    | some v =>
      cases v with
      | file c =>
        rw [hg] at hdir
        cases hdir
      | dir cs => exact ⟨cs, rfl⟩
  obtain ⟨rcs0, hrcs0⟩ := hr0
  obtain ⟨hw1, hm1, hf1, hr1, hS1⟩ := phase1_establish t hwf
  obtain ⟨rcs1, hrcs1⟩ := hr1 rcs0 hrcs0
  obtain ⟨hw2, hm2, hf2, hr2, hS2⟩ := phase2_establish (phase1 t).1 hw1
  obtain ⟨rcs2, hrcs2⟩ := hr2 rcs1 hrcs1
  obtain ⟨hw3, hm3, hf3, hS3⟩ :=
    phase3_establish (phase2 (phase1 t).1).1 hw2 ⟨rcs2, hrcs2⟩
  have hS1f : S1 (phase3 (phase2 (phase1 t).1).1).1 :=
    S1_preserved (S1_preserved hS1 hf2 hm2)
      (fun q => hf3 ".specify" q (by decide)) hm3
  have hS2f : S2 (phase3 (phase2 (phase1 t).1).1).1 :=
    S2_preserved hS2 (fun n hn => hf3 n [] (nonAgentDirs_ok n hn).1) hm3
  have h1 := phase1_stable _ hw3 hS1f
  have h2 := phase2_stable _ hS2f
  have h3 := phase3_stable _ hw3 hS3
  exact relocate_eq_of_stable h1 h2 h3

theorem c3_amended_relocate_idempotent_witness :
    (WFt c3Tree ∧ isDirAtB c3Tree [".specs", ".specify"] = true) ∧
    relocate_non_agent_directories (relocate_non_agent_directories c3Tree).1
      = ((relocate_non_agent_directories c3Tree).1, 0, 0, 0) :=
  ⟨⟨WFt_c3Tree, rfl⟩, c3_amended_relocate_idempotent c3Tree WFt_c3Tree rfl⟩

end SpecKit
